import Mathlib

/-!
# Sia: quorum registry, entropy chain and informed-swarm state machine

A shallow embedding of `quorum/quorum.go` and `swarm/stateinformed.go`.

Conventions of the embedding

* A Go `byte` is a `Fin 256`; the conversion `byte(j)` of an `int` is `toByte j`,
  which reduces modulo `2^8`.
* A Go `int` is a 64-bit two's complement integer: values are `Int`s in
  `[-2^63, 2^63)` and every arithmetic result is passed through `wrapInt`.
* `*Sibling` pointers are addresses into an explicit heap of sibling records, so
  that the assignment `s.index = byte(j)` is visible through every alias of `s`.
  A nil pointer is `none`.
* An `error` result is an `Option Error`, `none` being `nil`.
* Declarations of the packages `common` and `common/crypto` that the code uses
  but that are defined elsewhere (`QuorumSize`, `SWARMSIZE`,
  `CalculateTruncatedHash`, `RendezvousHash`, the `Address` type) are
  parameters of the definitions.
-/

namespace Sia

/-! ## Basic types -/

/-- A Go `byte`. -/
abbrev Byte := Fin 256

/-- The conversion `byte(j)` of a non-negative `int`: the low eight bits. -/
def toByte (j : Nat) : Byte := ⟨j % 256, Nat.mod_lt j (by decide)⟩

/-- A Go `error` value; `Option Error` is an `error` that may be `nil`. -/
abbrev Error := String

/-- Reduction of a mathematical integer to the 64-bit two's complement `int`. -/
def wrapInt (x : Int) : Int :=
  (x + 9223372036854775808) % 18446744073709551616 - 9223372036854775808

/-- The values a 64-bit `int` can hold. -/
def IsInt64 (x : Int) : Prop := -9223372036854775808 ≤ x ∧ x < 9223372036854775808

instance (x : Int) : Decidable (IsInt64 x) := by
  unfold IsInt64
  exact inferInstance

/-- The type `common.Entropy`, a fixed-size byte array. -/
abbrev Entropy := List Byte

/-- The type `crypto.PublicKey` (an `ecdsa.PublicKey`): two `*big.Int` coordinates,
each of which may be nil.  The curve is never inspected by the code embedded here. -/
structure PublicKey where
  X : Option Int
  Y : Option Int
  deriving DecidableEq, Repr

/-- The struct `Sibling`: identifies other members of the quorum. -/
structure Sibling (Address : Type) where
  index : Byte
  address : Address
  publicKey : Option PublicKey
  deriving DecidableEq, Repr

/-- The address of a `Sibling` record. -/
abbrev Ptr := Nat

/-- The store of `Sibling` records: `cell p` is the record at address `p`, and
`next` is the first address that `new(Sibling)` has not handed out yet. -/
structure Heap (Address : Type) where
  cell : Ptr → Sibling Address
  next : Nat

/-- The assignment `s.index = b` through the pointer `s`. -/
def Heap.setIndex {Address : Type} (h : Heap Address) (s : Ptr) (b : Byte) : Heap Address :=
  { h with cell := fun p => if p = s then { h.cell s with index := b } else h.cell p }

/-- Allocation of a record: the new address and the extended heap. -/
def Heap.alloc {Address : Type} (h : Heap Address) (r : Sibling Address) : Ptr × Heap Address :=
  (h.next, { cell := fun p => if p = h.next then r else h.cell p, next := h.next + 1 })

/-- The struct `quorum`, without its lock and its batch parent, which the
embedded functions never touch.  `siblings` is the array `[QuorumSize]*Sibling`. -/
structure quorum where
  siblings : List (Option Ptr)
  currentEntropy : Entropy
  upcomingEntropy : Entropy
  deriving DecidableEq, Repr

/-- How a call ends: it returns, it ends the process through `log.Fatalln`, or it
aborts with a run-time panic. -/
inductive Outcome (α : Type) where
  | ok (a : α)
  | fatal (msg : Error)
  | panic (msg : String)
  deriving DecidableEq, Repr

/-! ## Entropy chain: `randInt` -/

/-- The loop `for i := 0; i < 4; i++ { rollingInt = rollingInt << 8;
rollingInt += int(q.currentEntropy[i]) }`, from iteration `i` on, with `n`
iterations left. -/
def rollingLoop (e : Entropy) : (n : Nat) → (i : Nat) → (rollingInt : Int) → Int
  | 0, _, rollingInt => rollingInt
  | n + 1, i, rollingInt =>
    let shifted := wrapInt (rollingInt * 256)
    rollingLoop e n (i + 1) (wrapInt (shifted + ((e.getD i 0).val : Int)))

/-- The method `quorum.randInt`.  Returns the results `(randInt, err)` and the
quorum after the call. -/
def quorum.randInt (CalculateTruncatedHash : List Byte → Entropy × Option Error)
    (q : quorum) (low high : Int) : (Int × Option Error) × quorum :=
  if low = high then
    ((0, some "low and high cannot be the same number"), q)
  else
    let rollingInt := rollingLoop q.currentEntropy 4 0 0
    let randInt := wrapInt (Int.tmod rollingInt (wrapInt (high - low)) + low)
    let th := CalculateTruncatedHash q.currentEntropy
    ((randInt, th.2), { q with currentEntropy := th.1 })

/-! ## Sibling ordering -/

/-- The loop `for i, s := range q.siblings { if s != nil { siblingOrdering =
append(siblingOrdering, byte(i)) } }` over the slots from position `i` on. -/
def occupiedFrom : (i : Nat) → List (Option Ptr) → List Byte
  | _, [] => []
  | i, none :: rest => occupiedFrom (i + 1) rest
  | i, some _ :: rest => toByte i :: occupiedFrom (i + 1) rest

/-- The shuffle loop `for i := range siblingOrdering { ... }` of `siblingOrdering`,
over the remaining loop indices. -/
def shuffleLoop (CalculateTruncatedHash : List Byte → Entropy × Option Error) :
    List Nat → List Byte → quorum → Outcome (List Byte × quorum)
  | [], siblingOrdering, q => Outcome.ok (siblingOrdering, q)
  | i :: rest, siblingOrdering, q =>
    match quorum.randInt CalculateTruncatedHash q (i : Int) (siblingOrdering.length : Int) with
    | ((_, some err), _) => Outcome.fatal err
    | ((newIndex, none), q1) =>
      if newIndex < 0 then Outcome.panic "index out of range"
      else
        match siblingOrdering[newIndex.toNat]?, siblingOrdering[i]? with
        | some tmp, some si =>
          shuffleLoop CalculateTruncatedHash rest
            ((siblingOrdering.set newIndex.toNat si).set i tmp) q1
        | _, _ => Outcome.panic "index out of range"

/-- The method `quorum.siblingOrdering`: the ordering and the quorum after the call. -/
def quorum.siblingOrdering (CalculateTruncatedHash : List Byte → Entropy × Option Error)
    (q : quorum) : Outcome (List Byte × quorum) :=
  let siblingOrdering := occupiedFrom 0 q.siblings
  shuffleLoop CalculateTruncatedHash (List.range siblingOrdering.length) siblingOrdering q

/-! ## Heartbeat processing -/

/-- The struct `heartbeat`, as far as `processHeartbeat` reads it. -/
structure heartbeat where
  entropy : Entropy
  hopefuls : List Ptr
  deriving DecidableEq, Repr

/-- A line written by `processHeartbeat`: `println("placed hopeful at index", j)`
or `log.Infoln("failed to add hopeful: quorum already full")`. -/
inductive LogLine where
  | placed (j : Nat)
  | full
  deriving DecidableEq, Repr

/-- The variables `processHeartbeat` works on. -/
structure HeartbeatState (Address : Type) where
  heap : Heap Address
  q : quorum
  newSiblings : List Ptr
  log : List LogLine

/-- The inner loop `j := 0; for { ... j++ }` of `processHeartbeat` for the
hopeful `s`, at slot `j` with `n = QuorumSize - j` slots left to look at. -/
def placeHopeful {Address : Type} (s : Ptr) :
    (n : Nat) → (j : Nat) → HeartbeatState Address → HeartbeatState Address
  | 0, _, st => { st with log := st.log ++ [LogLine.full] }
  | n + 1, j, st =>
    if st.q.siblings.getD j none = none then
      let heap1 := st.heap.setIndex s (toByte j)
      { heap := heap1
        q := { st.q with siblings := st.q.siblings.set (heap1.cell s).index.val (some s) }
        newSiblings := st.newSiblings ++ [s]
        log := st.log ++ [LogLine.placed j] }
    else placeHopeful s n (j + 1) st

/-- The outer loop `for _, s := range hb.hopefuls` of `processHeartbeat`. -/
def hopefulsLoop {Address : Type} (QuorumSize : Nat) :
    List Ptr → HeartbeatState Address → HeartbeatState Address
  | [], st => st
  | s :: rest, st => hopefulsLoop QuorumSize rest (placeHopeful s QuorumSize 0 st)

/-- The method `quorum.processHeartbeat`.  Returns the results
`(newSiblings, err)` and the state after the call, with the lines written. -/
def quorum.processHeartbeat {Address : Type} (QuorumSize : Nat)
    (CalculateTruncatedHash : List Byte → Entropy × Option Error)
    (heap : Heap Address) (q : quorum) (hb : heartbeat) :
    (List Ptr × Option Error) × HeartbeatState Address :=
  let st := hopefulsLoop QuorumSize hb.hopefuls
    { heap := heap, q := q, newSiblings := [], log := [] }
  let th := CalculateTruncatedHash (st.q.upcomingEntropy ++ hb.entropy)
  ((st.newSiblings, th.2), { st with q := { st.q with upcomingEntropy := th.1 } })

/-! ## Gob codec of siblings and quorums

The byte streams of `encoding/gob` are represented by the sequence of values
written to them: `Encode` appends one value, `Decode` reads the next one and
fails when the stream is exhausted or the value has another type. -/

/-- A value on the stream written by `Sibling.GobEncode`. -/
inductive GobField (Address : Type) where
  | index (b : Byte)
  | address (a : Address)
  | publicKey (x y : Int)
  deriving DecidableEq, Repr

/-- A value on the stream written by `quorum.GobEncode`: a list of siblings,
each one the stream its own `GobEncode` produced, or an entropy value. -/
inductive GobValue (Address : Type) where
  | siblings (l : List (List (GobField Address)))
  | entropy (e : Entropy)
  deriving DecidableEq, Repr

/-- Modelled from the spec: the gob encoding of a `crypto.PublicKey`, which lives
in `common/crypto` and is missing here.  A key is encodable exactly when both of
its coordinates are present, and an encoded key decodes to the same coordinates. -/
def PublicKey.gobEncode (k : PublicKey) : Option (Int × Int) :=
  match k.X, k.Y with
  | some x, some y => some (x, y)
  | _, _ => none

/-- The method `Sibling.GobEncode`: the results `(gobSibling, err)`. -/
def Sibling.GobEncode {Address : Type} (heap : Heap Address) (s : Option Ptr) :
    List (GobField Address) × Option Error :=
  match s with
  | none => ([], some "Cannot encode nil sibling")
  | some p =>
    match (heap.cell p).publicKey with
    | none => ([], some "Cannot encode nil value s.publicKey")
    | some epk =>
      match epk.X with
      | none => ([], some "Cannot encode nil value s.publicKey.X")
      | some _ =>
        match epk.Y with
        | none => ([], some "Cannot encode nil value s.publicKey.Y")
        | some _ =>
          let w : List (GobField Address) := []
          let w := w ++ [GobField.index (heap.cell p).index]
          let w := w ++ [GobField.address (heap.cell p).address]
          match PublicKey.gobEncode epk with
          | none => ([], some "gob: cannot encode public key")
          | some (x, y) => (w ++ [GobField.publicKey x y], none)

/-- The method `Sibling.GobDecode`: the result `err` and the heap after the call. -/
def Sibling.GobDecode {Address : Type} (heap : Heap Address) (s : Option Ptr)
    (gobSibling : List (GobField Address)) : Option Error × Heap Address :=
  match s with
  | none => (some "Cannot decode into nil sibling", heap)
  | some p =>
    match gobSibling with
    | GobField.index b :: r1 =>
      let heap1 := heap.setIndex p b
      match r1 with
      | GobField.address a :: r2 =>
        let heap2 : Heap Address :=
          { heap1 with cell := fun p1 =>
              if p1 = p then { heap1.cell p with address := a } else heap1.cell p1 }
        match r2 with
        | GobField.publicKey x y :: _ =>
          (none,
            { heap2 with cell := fun p1 =>
                if p1 = p then { heap2.cell p with publicKey := some ⟨some x, some y⟩ }
                else heap2.cell p1 })
        | _ => (some "gob: cannot decode s.publicKey", heap2)
      | _ => (some "gob: cannot decode s.address", heap1)
    | _ => (some "gob: cannot decode s.index", heap)

/-- The zero value `new(quorum)`. -/
def quorum.new (QuorumSize EntropySize : Nat) : quorum :=
  { siblings := List.replicate QuorumSize none
    currentEntropy := List.replicate EntropySize 0
    upcomingEntropy := List.replicate EntropySize 0 }

/-- The loop `for _, s := range q.siblings { if s != nil { encSiblings =
append(encSiblings, s) } }` of `quorum.GobEncode`. -/
def nonNilSiblings : List (Option Ptr) → List Ptr
  | [] => []
  | none :: rest => nonNilSiblings rest
  | some s :: rest => s :: nonNilSiblings rest

/-- What `encoder.Encode(encSiblings)` does with a slice of siblings: each element
is encoded by its own `GobEncode`, and the first error ends the encoding. -/
def encodeSiblingList {Address : Type} (heap : Heap Address) :
    List Ptr → List (List (GobField Address)) × Option Error
  | [] => ([], none)
  | s :: rest =>
    match Sibling.GobEncode heap (some s) with
    | (_, some err) => ([], some err)
    | (gobSibling, none) =>
      match encodeSiblingList heap rest with
      | (_, some err) => ([], some err)
      | (l, none) => (gobSibling :: l, none)

/-- The method `quorum.GobEncode`: the results `(gobQuorum, err)`. -/
def quorum.GobEncode {Address : Type} (QuorumSize EntropySize : Nat) (heap : Heap Address)
    (q : Option quorum) : List (GobValue Address) × Option Error :=
  let q := match q with
    | none => quorum.new QuorumSize EntropySize
    | some q => q
  let w : List (GobValue Address) := []
  let encSiblings := nonNilSiblings q.siblings
  match encodeSiblingList heap encSiblings with
  | (_, some err) => ([], some err)
  | (l, none) =>
    let w := w ++ [GobValue.siblings l]
    let w := w ++ [GobValue.entropy q.currentEntropy]
    let w := w ++ [GobValue.entropy q.upcomingEntropy]
    (w, none)

/-- What `decoder.Decode(&encSiblings)` does with the siblings on the stream: each
one is decoded by `GobDecode` into a record obtained from `new(Sibling)`, and the
first error ends the decoding. -/
def decodeSiblingList {Address : Type} [Inhabited Address] :
    Heap Address → List (List (GobField Address)) → (List Ptr × Option Error) × Heap Address
  | heap, [] => (([], none), heap)
  | heap, gobSibling :: rest =>
    let (s, heap1) := heap.alloc { index := 0, address := default, publicKey := none }
    match Sibling.GobDecode heap1 (some s) gobSibling with
    | (some err, heap2) => (([], some err), heap2)
    | (none, heap2) =>
      match decodeSiblingList heap2 rest with
      | ((_, some err), heap3) => (([], some err), heap3)
      | ((l, none), heap3) => ((s :: l, none), heap3)

/-- The loop `for _, s := range encSiblings { q.siblings[s.index] = s }` of
`quorum.GobDecode`; an index outside the array `[QuorumSize]*Sibling` is a
run-time panic. -/
def placeDecoded {Address : Type} (QuorumSize : Nat) (heap : Heap Address) :
    List Ptr → List (Option Ptr) → Outcome (List (Option Ptr))
  | [], siblings => Outcome.ok siblings
  | s :: rest, siblings =>
    if (heap.cell s).index.val < QuorumSize then
      placeDecoded QuorumSize heap rest (siblings.set (heap.cell s).index.val (some s))
    else Outcome.panic "index out of range"

/-- The method `quorum.GobDecode`: the result `err`, the heap, and the quorum
decoded into (the receiver, or a new quorum when the receiver is nil). -/
def quorum.GobDecode {Address : Type} [Inhabited Address] (QuorumSize EntropySize : Nat)
    (heap : Heap Address) (q : Option quorum) (gobQuorum : List (GobValue Address)) :
    Outcome (Option Error × Heap Address × quorum) :=
  let q := match q with
    | none => quorum.new QuorumSize EntropySize
    | some q => q
  match gobQuorum with
  | GobValue.siblings l :: r1 =>
    match decodeSiblingList heap l with
    | ((_, some err), heap1) => Outcome.ok (some err, heap1, q)
    | ((encSiblings, none), heap1) =>
      match placeDecoded QuorumSize heap1 encSiblings q.siblings with
      | Outcome.panic msg => Outcome.panic msg
      | Outcome.fatal msg => Outcome.fatal msg
      | Outcome.ok siblings =>
        let q1 := { q with siblings := siblings }
        match r1 with
        | GobValue.entropy e1 :: r2 =>
          let q2 := { q1 with currentEntropy := e1 }
          match r2 with
          | GobValue.entropy e2 :: _ =>
            Outcome.ok (none, heap1, { q2 with upcomingEntropy := e2 })
          | _ => Outcome.ok (some "gob: cannot decode q.upcomingEntropy", heap1, q2)
        | _ => Outcome.ok (some "gob: cannot decode q.currentEntropy", heap1, q1)
  | _ => Outcome.ok (some "gob: cannot decode encSiblings", heap, q)

/-! ## The informed-swarm state machine (`swarm/stateinformed.go`)

Go maps are association lists whose keys are pairwise distinct; the order of the
list stands for the order in which `range` visits the map. -/

/-- The assignment `m[k] = v` on a map. -/
def mapPut {β : Type} : List (String × β) → String → β → List (String × β)
  | [], k, v => [(k, v)]
  | (k1, v1) :: rest, k, v =>
    if k1 = k then (k, v) :: rest else (k1, v1) :: mapPut rest k v

/-- The read `m[k]` of a map with `int` values: the zero value when `k` is absent. -/
def mapGetInt (m : List (String × Int)) (k : String) : Int :=
  match m.lookup k with
  | some v => v
  | none => 0

/-- The struct `Block`, with the fields this state machine reads or writes.
`StorageMapping` is a `map[string]interface{}` of which only the key set is ever
looked at; it is represented by its keys. -/
structure Block where
  Id : String
  Blockchain : String
  Compiler : String
  StorageMapping : List String
  EntropyStage1 : List (String × String)
  deriving DecidableEq, Repr

/-- The transaction `HeartBeatTransaction`, with the fields read here. -/
structure HeartBeatTransaction where
  Host : String
  Prevblock : String
  Stage1 : String
  deriving DecidableEq, Repr

/-- The transaction `NodeAlive`: the announcing node and the swarm it announces to. -/
structure NodeAlive where
  Node : String
  Swarm : String
  deriving DecidableEq, Repr

/-- A `common.Transaction`, by dynamic type. -/
inductive Transaction where
  | nodeAlive (n : NodeAlive)
  | heartBeat (n : HeartBeatTransaction)
  | other
  deriving DecidableEq, Repr

/-- The struct `BlockChain`, as far as this state reads it. -/
structure BlockChain where
  Host : String
  Id : String
  BlockHistory : List Block
  deriving DecidableEq, Repr

/-- Modelled from the spec: `BlockChain.AddBlock`, which is declared outside the
files at hand.  The block history is an ordered, append-only sequence, and an
accepted block is added at its end. -/
def BlockChain.AddBlock (c : BlockChain) (b : Block) : BlockChain :=
  { c with BlockHistory := c.BlockHistory ++ [b] }

/-- The chain head: the most recently accepted block, if there is one. -/
def BlockChain.head (c : BlockChain) : Option Block := c.BlockHistory.getLast?

/-- Modelled from the spec: the constructor `NewHeartBeat(prevblock, host, stage1,
stage2)`, declared outside the files at hand.  The heartbeat carries the host, the
first-stage hash, and the id of the block it references. -/
def NewHeartBeat (prevblock : Block) (host stage1 : String) : HeartBeatTransaction :=
  { Host := host, Prevblock := prevblock.Id, Stage1 := stage1 }

/-- Modelled from the spec: the constructor `NewNodeAlive(host, id)`, declared
outside the files at hand. -/
def NewNodeAlive (host id : String) : NodeAlive := { Node := host, Swarm := id }

/-- The struct `StateSwarmInformed`, without its channels.  `compiler` is the local
variable of `mainloop`, which keeps its value from one event to the next. -/
structure StateSwarmInformed where
  hostsseen : List (String × Int)
  broadcastcount : Nat
  stage2 : String
  learning : Bool
  heartbeats : List HeartBeatTransaction
  chain : BlockChain
  compiler : String
  deriving DecidableEq, Repr

/-- What an event handler sends out: a transaction or a block put on
`s.chain.outgoingTransactions`, or the start of `go s.broadcastLife()`. -/
inductive Output where
  | transaction (t : Transaction)
  | block (b : Block)
  | broadcastLife
  deriving DecidableEq, Repr

/-- The `State` that `handleBlock` returns: the receiver `s` itself,
`NewStateSwarmConnected()`, or `NewStateSwarmJoin(s.chain)`. -/
inductive NextState where
  | self
  | connected
  | join
  deriving DecidableEq, Repr

/-- The function `NewStateSwarmInformed`: the new state and the `go
s.broadcastLife()` it starts. -/
def NewStateSwarmInformed (chain : BlockChain) : StateSwarmInformed × List Output :=
  ({ hostsseen := [], broadcastcount := 0, stage2 := "", learning := true,
     heartbeats := [], chain := chain, compiler := "" }, [Output.broadcastLife])

/-- The loop of `blockCompiler` that pulls all hosts not seen skipping a block. -/
def eligibleHosts : List (String × Int) → List String
  | [] => []
  | (host, skipped) :: rest =>
    if skipped ≠ 0 then eligibleHosts rest else host :: eligibleHosts rest

/-- The method `StateSwarmInformed.blockCompiler`.  `RendezvousHash hosts host`
is `common.RendezvousHash(sha256.New(), hosts, host)`. -/
def StateSwarmInformed.blockCompiler (RendezvousHash : List String → String → String)
    (s : StateSwarmInformed) : String :=
  let hosts := eligibleHosts s.hostsseen
  RendezvousHash hosts s.chain.Host

/-- The case `<-s.sendBroadcast` of `mainloop`. -/
def StateSwarmInformed.onSendBroadcast (s : StateSwarmInformed) :
    StateSwarmInformed × List Output :=
  ({ s with broadcastcount := (s.broadcastcount + 1) % 18446744073709551616 },
    [Output.transaction (Transaction.nodeAlive (NewNodeAlive s.chain.Host s.chain.Id))])

/-- The loop `for _, h := range s.heartbeats { b.EntropyStage1[h.Host] = h.Stage1 }`. -/
def stage1Map : List HeartBeatTransaction → List (String × String) → List (String × String)
  | [], m => m
  | h :: rest, m => stage1Map rest (mapPut m h.Host h.Stage1)

/-- The case `<-s.blockgen` of `mainloop`: the periodic tick.  `randomString` is
what `common.RandomString(8)` returns to the branch that generates a block. -/
def StateSwarmInformed.onBlockgen (SWARMSIZE : Nat)
    (RendezvousHash : List String → String → String)
    (randomString : String × Option Error) (s : StateSwarmInformed) :
    Outcome (StateSwarmInformed × List Output) :=
  let s1 : StateSwarmInformed :=
    if s.learning then { s with learning := false }
    else if s.chain.BlockHistory.length = 0 then
      if s.compiler ≠ "" then
        { s with hostsseen :=
            mapPut s.hostsseen s.compiler (wrapInt (mapGetInt s.hostsseen s.compiler + 1)) }
      else s
    else s
  if s1.hostsseen.length ≤ SWARMSIZE / 2 then Outcome.ok (s1, [])
  else
    let compiler := s1.blockCompiler RendezvousHash
    let s2 := { s1 with compiler := compiler }
    let r1 : Outcome (StateSwarmInformed × List Output) :=
      if s2.chain.BlockHistory.length = 0 ∧ compiler = s2.chain.Host then
        match randomString with
        | (_, some err) => Outcome.panic ("checkBlockGenRandom" ++ err)
        | (id, none) =>
          let b : Block :=
            { Id := id, Blockchain := s2.chain.Id, Compiler := s2.chain.Host,
              StorageMapping := s2.hostsseen.map Prod.fst, EntropyStage1 := [] }
          Outcome.ok ({ s2 with heartbeats := [] }, [Output.block b])
      else Outcome.ok (s2, [])
    match r1 with
    | Outcome.panic msg => Outcome.panic msg
    | Outcome.fatal msg => Outcome.fatal msg
    | Outcome.ok (s3, out1) =>
      if s3.chain.BlockHistory.length = 1 ∧ s3.heartbeats.length > 2 then
        match randomString with
        | (_, some err) => Outcome.panic err
        | (id, none) =>
          match s3.chain.BlockHistory with
          | [] => Outcome.panic "index out of range"
          | b0 :: _ =>
            let b : Block :=
              { Id := id, Blockchain := s3.chain.Id, Compiler := s3.chain.Host,
                StorageMapping := b0.StorageMapping,
                EntropyStage1 := stage1Map s3.heartbeats [] }
            Outcome.ok (s3, out1 ++ [Output.block b])
      else Outcome.ok (s3, out1)

/-- The method `StateSwarmInformed.handleTransaction`. -/
def StateSwarmInformed.handleTransaction (RendezvousHash : List String → String → String)
    (s : StateSwarmInformed) (t : Transaction) : StateSwarmInformed × List Output :=
  match t with
  | Transaction.nodeAlive n =>
    if ¬ s.learning then (s, [])
    else
      let s1 := { s with hostsseen := mapPut s.hostsseen n.Node 0 }
      if s1.hostsseen.length > 2 ∧ s1.broadcastcount < 2 then (s1, [Output.broadcastLife])
      else (s1, [])
  | Transaction.heartBeat n =>
    if s.learning then (s, [])
    else if s.blockCompiler RendezvousHash ≠ s.chain.Host then (s, [])
    else
      match s.chain.BlockHistory with
      | b0 :: _ =>
        if n.Prevblock = b0.Id then ({ s with heartbeats := s.heartbeats ++ [n] }, [])
        else (s, [])
      | [] => (s, [])
  | Transaction.other => (s, [])

/-- The method `StateSwarmInformed.handleBlock`.  `hashedRandomData` is the pair
`(stage1, stage2)` that `common.HashedRandomData(sha256.New(), 8)` returns. -/
def StateSwarmInformed.handleBlock (RendezvousHash : List String → String → String)
    (hashedRandomData : String × String) (s : StateSwarmInformed) (b : Block) :
    Outcome (NextState × StateSwarmInformed × List Output) :=
  if s.learning then Outcome.ok (NextState.self, s, [])
  else if b.Compiler ≠ s.blockCompiler RendezvousHash then Outcome.ok (NextState.self, s, [])
  else if s.chain.BlockHistory.length = 0 then
    let s1 := { s with chain := s.chain.AddBlock b }
    let s2 := { s1 with stage2 := hashedRandomData.2 }
    if s2.chain.Host ∈ b.StorageMapping then
      match s2.chain.BlockHistory with
      | [] => Outcome.panic "index out of range"
      | b0 :: _ =>
        let h := NewHeartBeat b0 s2.chain.Host hashedRandomData.1
        Outcome.ok (NextState.self, s2, [Output.transaction (Transaction.heartBeat h)])
    else Outcome.ok (NextState.self, s2, [])
  else if s.chain.BlockHistory.length = 1 then
    let s1 := { s with chain := s.chain.AddBlock b }
    if s1.chain.Host ∈ b.StorageMapping then Outcome.ok (NextState.connected, s1, [])
    else Outcome.ok (NextState.join, s1, [])
  else Outcome.ok (NextState.self, s, [])

/-- An event of `mainloop`. -/
inductive Event where
  | sendBroadcast
  | sync
  | transaction (t : Transaction)
  | block (b : Block) (hashedRandomData : String × String)
  | blockgen (randomString : String × Option Error)
  deriving DecidableEq, Repr

/-- One iteration of the `for { select { ... } }` of `mainloop`. -/
def StateSwarmInformed.step (SWARMSIZE : Nat) (RendezvousHash : List String → String → String)
    (s : StateSwarmInformed) : Event → Outcome (StateSwarmInformed × List Output)
  | Event.sendBroadcast => Outcome.ok s.onSendBroadcast
  | Event.sync => Outcome.ok (s, [])
  | Event.transaction t => Outcome.ok (s.handleTransaction RendezvousHash t)
  | Event.block b hashedRandomData =>
    match s.handleBlock RendezvousHash hashedRandomData b with
    | Outcome.ok (_, s1, out) => Outcome.ok (s1, out)
    | Outcome.fatal msg => Outcome.fatal msg
    | Outcome.panic msg => Outcome.panic msg
  | Event.blockgen randomString => s.onBlockgen SWARMSIZE RendezvousHash randomString

/-! ## Notions used to state the properties -/

/-- The big-endian value `b0*2^24 + b1*2^16 + b2*2^8 + b3` of the first four bytes
of an entropy value. -/
def firstFour (e : Entropy) : Int :=
  ((e.getD 0 0).val : Int) * 2 ^ 24 + ((e.getD 1 0).val : Int) * 2 ^ 16
    + ((e.getD 2 0).val : Int) * 2 ^ 8 + ((e.getD 3 0).val : Int)

/-- The image of an outcome under a function on returned values. -/
def Outcome.map {α β : Type} (f : α → β) : Outcome α → Outcome β
  | Outcome.ok a => Outcome.ok (f a)
  | Outcome.fatal msg => Outcome.fatal msg
  | Outcome.panic msg => Outcome.panic msg

/-- The empty slots of a slot table in ascending order, the table starting at
position `j`. -/
def emptyFrom : Nat → List (Option Ptr) → List Nat
  | _, [] => []
  | j, none :: rest => j :: emptyFrom (j + 1) rest
  | j, some _ :: rest => emptyFrom (j + 1) rest

/-- The slots named by the lines `placed hopeful at index j`, in the order written. -/
def placedSlots : List LogLine → List Nat
  | [] => []
  | LogLine.placed j :: rest => j :: placedSlots rest
  | LogLine.full :: rest => placedSlots rest

/-- The slot table after the assignments `siblings[e] = s` for the pairs `(e, s)`
of a list, in order. -/
def slotFold : List (Nat × Ptr) → List (Option Ptr) → List (Option Ptr)
  | [], siblings => siblings
  | (e, s) :: rest, siblings => slotFold rest (siblings.set e (some s))

/-- The heap after the assignments `s.index = byte(e)` for the pairs `(e, s)` of a
list, in order. -/
def indexFold {Address : Type} : List (Nat × Ptr) → Heap Address → Heap Address
  | [], heap => heap
  | (e, s) :: rest, heap => indexFold rest (heap.setIndex s (toByte e))

/-- The statement `if s.learning { ... } else if len(s.chain.BlockHistory) == 0 { ...
}` that opens the tick: learning ends, or the compiler elected before that has not
produced a block gets its skip-count incremented. -/
def StateSwarmInformed.markSkipped (s : StateSwarmInformed) : StateSwarmInformed :=
  if s.learning then { s with learning := false }
  else if s.chain.BlockHistory.length = 0 then
    if s.compiler ≠ "" then
      { s with hostsseen :=
          mapPut s.hostsseen s.compiler (wrapInt (mapGetInt s.hostsseen s.compiler + 1)) }
    else s
  else s

/-- A run of `mainloop`: the events are handled one after the other, and the run
ends where an event makes the process abort. -/
def StateSwarmInformed.run (SWARMSIZE : Nat) (RendezvousHash : List String → String → String) :
    StateSwarmInformed → List Event → Outcome StateSwarmInformed
  | s, [] => Outcome.ok s
  | s, e :: rest =>
    match s.step SWARMSIZE RendezvousHash e with
    | Outcome.ok (s1, _) => StateSwarmInformed.run SWARMSIZE RendezvousHash s1 rest
    | Outcome.fatal msg => Outcome.fatal msg
    | Outcome.panic msg => Outcome.panic msg

/-- The tick from the majority check `if len(s.hostsseen) <= common.SWARMSIZE/2 {
continue }` on: the election of the compiler and the generation of blocks. -/
def StateSwarmInformed.generateBlocks (SWARMSIZE : Nat)
    (RendezvousHash : List String → String → String)
    (randomString : String × Option Error) (s1 : StateSwarmInformed) :
    Outcome (StateSwarmInformed × List Output) :=
  if s1.hostsseen.length ≤ SWARMSIZE / 2 then Outcome.ok (s1, [])
  else
    let compiler := s1.blockCompiler RendezvousHash
    let s2 := { s1 with compiler := compiler }
    let r1 : Outcome (StateSwarmInformed × List Output) :=
      if s2.chain.BlockHistory.length = 0 ∧ compiler = s2.chain.Host then
        match randomString with
        | (_, some err) => Outcome.panic ("checkBlockGenRandom" ++ err)
        | (id, none) =>
          let b : Block :=
            { Id := id, Blockchain := s2.chain.Id, Compiler := s2.chain.Host,
              StorageMapping := s2.hostsseen.map Prod.fst, EntropyStage1 := [] }
          Outcome.ok ({ s2 with heartbeats := [] }, [Output.block b])
      else Outcome.ok (s2, [])
    match r1 with
    | Outcome.panic msg => Outcome.panic msg
    | Outcome.fatal msg => Outcome.fatal msg
    | Outcome.ok (s3, out1) =>
      if s3.chain.BlockHistory.length = 1 ∧ s3.heartbeats.length > 2 then
        match randomString with
        | (_, some err) => Outcome.panic err
        | (id, none) =>
          match s3.chain.BlockHistory with
          | [] => Outcome.panic "index out of range"
          | b0 :: _ =>
            let b : Block :=
              { Id := id, Blockchain := s3.chain.Id, Compiler := s3.chain.Host,
                StorageMapping := b0.StorageMapping,
                EntropyStage1 := stage1Map s3.heartbeats [] }
            Outcome.ok (s3, out1 ++ [Output.block b])
      else Outcome.ok (s3, out1)

/-- The stream that `Sibling.GobEncode` produces for a sibling record `r`. -/
def Sibling.gob {Address : Type} (r : Sibling Address) : List (GobField Address) :=
  (Sibling.GobEncode (⟨fun _ => r, 0⟩ : Heap Address) (some 0)).1

/-! # Lemmas and theorems -/

/-! ## Machine integers and the entropy chain -/

theorem wrapInt_of_isInt64 {x : Int} (h : IsInt64 x) : wrapInt x = x := by
  unfold IsInt64 at h
  unfold wrapInt
  omega

theorem isInt64_wrapInt (x : Int) : IsInt64 (wrapInt x) := by
  unfold IsInt64 wrapInt
  omega

theorem wrapInt_sub_ne_zero {low high : Int} (hl : IsInt64 low) (hh : IsInt64 high)
    (hne : low ≠ high) : wrapInt (high - low) ≠ 0 := by
  unfold IsInt64 at hl hh
  unfold wrapInt
  omega

theorem rolling_step (r : Int) (b : Byte) (h0 : 0 ≤ r) (h1 : r < 16777216) :
    wrapInt (wrapInt (r * 256) + (b.val : Int)) = r * 256 + (b.val : Int) := by
  have hb := b.isLt
  unfold wrapInt
  omega

theorem rollingLoop_eq (e : Entropy) : rollingLoop e 4 0 0 = firstFour e := by
  have h0 := (e.getD 0 0).isLt
  have h1 := (e.getD 1 0).isLt
  have h2 := (e.getD 2 0).isLt
  have h3 := (e.getD 3 0).isLt
  simp only [rollingLoop, firstFour, Nat.zero_add, Nat.reduceAdd]
  rw [rolling_step 0 (e.getD 0 0) (by omega) (by omega)]
  rw [rolling_step (0 * 256 + ((e.getD 0 0).val : Int)) (e.getD 1 0) (by omega) (by omega)]
  rw [rolling_step ((0 * 256 + ((e.getD 0 0).val : Int)) * 256 + ((e.getD 1 0).val : Int))
    (e.getD 2 0) (by omega) (by omega)]
  rw [rolling_step (((0 * 256 + ((e.getD 0 0).val : Int)) * 256 + ((e.getD 1 0).val : Int)) * 256
    + ((e.getD 2 0).val : Int)) (e.getD 3 0) (by omega) (by omega)]
  omega

theorem firstFour_bounds (e : Entropy) : 0 ≤ firstFour e ∧ firstFour e < 4294967296 := by
  have h0 := (e.getD 0 0).isLt
  have h1 := (e.getD 1 0).isLt
  have h2 := (e.getD 2 0).isLt
  have h3 := (e.getD 3 0).isLt
  unfold firstFour
  omega




/-- C4: for Go ints `low ≠ high`, `randInt(low, high)` does not divide by zero and
returns `((b0*2^24 + b1*2^16 + b2*2^8 + b3) mod (high - low)) + low` in `int`
arithmetic, `b0..b3` being the first four bytes of `currentEntropy` before the call
(where `high - low` and the sum fit an `int` this is the exact integer value, and
for `low < high` the mathematical remainder); afterwards `currentEntropy` is the
truncated hash of the old `currentEntropy` and nothing else has changed.  In
particular `randInt(0, 1)` on all-zero entropy returns `0` and leaves
`currentEntropy = truncatedHash(all-zero bytes)`. -/
theorem randInt_value (CalculateTruncatedHash : List Byte → Entropy × Option Error)
    (q : quorum) (low high : Int) (hlow : IsInt64 low) (hhigh : IsInt64 high)
    (hne : low ≠ high) :
    wrapInt (high - low) ≠ 0 ∧
    (quorum.randInt CalculateTruncatedHash q low high).1.1
      = wrapInt (Int.tmod (firstFour q.currentEntropy) (wrapInt (high - low)) + low) ∧
    (IsInt64 (high - low) →
      IsInt64 (Int.tmod (firstFour q.currentEntropy) (high - low) + low) →
      (quorum.randInt CalculateTruncatedHash q low high).1.1
        = Int.tmod (firstFour q.currentEntropy) (high - low) + low) ∧
    (low < high → IsInt64 (high - low) →
      (quorum.randInt CalculateTruncatedHash q low high).1.1
        = firstFour q.currentEntropy % (high - low) + low) ∧
    (quorum.randInt CalculateTruncatedHash q low high).2
      = { q with currentEntropy := (CalculateTruncatedHash q.currentEntropy).1 } ∧
    (∀ n : Nat, q.currentEntropy = List.replicate n 0 →
      (quorum.randInt CalculateTruncatedHash q 0 1).1.1 = 0 ∧
      (quorum.randInt CalculateTruncatedHash q 0 1).2.currentEntropy
        = (CalculateTruncatedHash (List.replicate n 0)).1) := by
  have hval : (quorum.randInt CalculateTruncatedHash q low high).1.1
      = wrapInt (Int.tmod (firstFour q.currentEntropy) (wrapInt (high - low)) + low) := by
    simp [quorum.randInt, hne, rollingLoop_eq]
  have hb := firstFour_bounds q.currentEntropy
  refine ⟨wrapInt_sub_ne_zero hlow hhigh hne, hval, ?_, ?_, ?_, ?_⟩
  · intro hd hs
    rw [hval, wrapInt_of_isInt64 hd, wrapInt_of_isInt64 hs]
  · intro hlt hd
    have hpos : 0 < high - low := by omega
    have hmod : Int.tmod (firstFour q.currentEntropy) (high - low)
        = firstFour q.currentEntropy % (high - low) :=
      Int.tmod_eq_emod hb.1 (Int.le_of_lt hpos)
    have h1 := Int.emod_nonneg (firstFour q.currentEntropy) (Int.ne_of_gt hpos)
    have h2 := Int.emod_lt_of_pos (firstFour q.currentEntropy) hpos
    have hs : IsInt64 (firstFour q.currentEntropy % (high - low) + low) := by
      unfold IsInt64 at *
      omega
    rw [hval, wrapInt_of_isInt64 hd, hmod, wrapInt_of_isInt64 hs]
  · simp [quorum.randInt, hne]
  · intro n hn
    constructor
    · simp [quorum.randInt, wrapInt]
    · simp [quorum.randInt, hn]

theorem randInt_value_witness :
    IsInt64 3 ∧ IsInt64 10 ∧ (3 : Int) ≠ 10 ∧
    (quorum.randInt (fun d => (d, none)) ⟨[], [0, 0, 1, 2], []⟩ 3 10).1.1
      = firstFour [0, 0, 1, 2] % (10 - 3) + 3 :=
  ⟨by decide, by decide, by decide,
    (randInt_value (fun d => (d, none)) ⟨[], [0, 0, 1, 2], []⟩ 3 10
      (by decide) (by decide) (by decide)).2.2.2.1 (by decide) (by decide)⟩

/-- C5: with a truncated hash that never fails, `randInt(low, high)` returns an
error if and only if `low == high`; and when `low == high` the quorum is left as
it was (entropy not advanced, slots and `upcomingEntropy` untouched). -/
theorem randInt_error_iff (CalculateTruncatedHash : List Byte → Entropy × Option Error)
    (q : quorum) (low high : Int) (htotal : ∀ d, (CalculateTruncatedHash d).2 = none) :
    ((quorum.randInt CalculateTruncatedHash q low high).1.2 ≠ none ↔ low = high) ∧
    (low = high → (quorum.randInt CalculateTruncatedHash q low high).2 = q) := by
  constructor
  · by_cases h : low = high
    · simp [quorum.randInt, h]
    · simp [quorum.randInt, h, htotal]
  · intro h
    simp [quorum.randInt, h]

theorem randInt_error_iff_witness :
    (∀ d : List Byte, ((fun d => (d, none)) d : Entropy × Option Error).2 = none) ∧
    (quorum.randInt (fun d => (d, none)) ⟨[none], [1, 2, 3, 4], []⟩ 5 5).2
      = ⟨[none], [1, 2, 3, 4], []⟩ :=
  ⟨fun _ => rfl,
    (randInt_error_iff (fun d => (d, none)) ⟨[none], [1, 2, 3, 4], []⟩ 5 5 (fun _ => rfl)).2 rfl⟩

/-! ## Sibling ordering -/

theorem randInt_range (CalculateTruncatedHash : List Byte → Entropy × Option Error)
    (q : quorum) (low high : Int) (hlow : IsInt64 low) (hhigh : IsInt64 high)
    (hlt : low < high) :
    low ≤ (quorum.randInt CalculateTruncatedHash q low high).1.1 ∧
    (quorum.randInt CalculateTruncatedHash q low high).1.1 < high := by
  have hne : low ≠ high := Int.ne_of_lt hlt
  have hval : (quorum.randInt CalculateTruncatedHash q low high).1.1
      = wrapInt (Int.tmod (firstFour q.currentEntropy) (wrapInt (high - low)) + low) := by
    simp [quorum.randInt, hne, rollingLoop_eq]
  have hb := firstFour_bounds q.currentEntropy
  rw [hval]
  generalize firstFour q.currentEntropy = r at hb
  unfold IsInt64 at hlow hhigh
  by_cases hd : high - low < 9223372036854775808
  · have hw : wrapInt (high - low) = high - low := wrapInt_of_isInt64 ⟨by omega, hd⟩
    have hpos : 0 < high - low := by omega
    have h1 := Int.tmod_nonneg (high - low) hb.1
    have h2 := Int.tmod_lt_of_pos r hpos
    rw [hw]
    generalize Int.tmod r (high - low) = t at h1 h2
    unfold wrapInt
    omega
  · have hw : wrapInt (high - low) = -(18446744073709551616 - (high - low)) := by
      unfold wrapInt
      omega
    rw [hw, Int.tmod_neg]
    have h1 := Int.tmod_nonneg (18446744073709551616 - (high - low)) hb.1
    have h2 : Int.tmod r (18446744073709551616 - (high - low)) ≤ r := by
      rw [Int.tmod_eq_emod hb.1 (by omega)]
      have hm := Int.emod_lt_of_pos r (b := 18446744073709551616 - (high - low)) (by omega)
      by_cases hr : r < 18446744073709551616 - (high - low)
      · rw [Int.emod_eq_of_lt hb.1 hr]
      · omega
    generalize Int.tmod r (18446744073709551616 - (high - low)) = t at h1 h2
    unfold wrapInt
    omega




theorem swap_perm {α : Type} [DecidableEq α] (l : List α) (a b : Nat) (x y : α)
    (ha : l[a]? = some x) (hb : l[b]? = some y) : ((l.set a y).set b x).Perm l := by
  obtain ⟨hal, hax⟩ := List.getElem?_eq_some.1 ha
  obtain ⟨hbl, hby⟩ := List.getElem?_eq_some.1 hb
  by_cases hab : a = b
  · subst hab
    have hxy : x = y := by rw [← hax, ← hby]
    subst hxy
    have h1 : l.set a x = l := by
      apply List.ext_getElem?
      intro i
      by_cases hi : a = i
      · subst hi
        rw [List.getElem?_set_self hal, ha]
      · rw [List.getElem?_set_ne hi]
    rw [h1, h1]
  · rw [List.perm_iff_count]
    intro c
    have hbl2 : b < (l.set a y).length := by simpa using hbl
    rw [List.count_set _ _ _ _ hbl2, List.count_set _ _ _ _ hal]
    have hget : (l.set a y)[b] = y := by
      rw [List.getElem_set_ne hab]
      exact hby
    rw [hget, hax]
    have hc := List.boole_getElem_le_count c l a hal
    rw [hax] at hc
    split_ifs at hc ⊢ <;> omega

theorem randInt_fields (CalculateTruncatedHash : List Byte → Entropy × Option Error)
    (q : quorum) (low high : Int) :
    (quorum.randInt CalculateTruncatedHash q low high).2.siblings = q.siblings ∧
    (quorum.randInt CalculateTruncatedHash q low high).2.upcomingEntropy = q.upcomingEntropy := by
  by_cases h : low = high <;> simp [quorum.randInt, h]

theorem randInt_err_none (CalculateTruncatedHash : List Byte → Entropy × Option Error)
    (htotal : ∀ d, (CalculateTruncatedHash d).2 = none) (q : quorum) (low high : Int)
    (hne : low ≠ high) : (quorum.randInt CalculateTruncatedHash q low high).1.2 = none := by
  simp [quorum.randInt, hne, htotal]

theorem shuffleLoop_ok (CalculateTruncatedHash : List Byte → Entropy × Option Error)
    (htotal : ∀ d, (CalculateTruncatedHash d).2 = none) :
    ∀ (is : List Nat) (so : List Byte) (q : quorum),
      (∀ i ∈ is, i < so.length) → so.length ≤ 256 →
      ∃ so1 q1, shuffleLoop CalculateTruncatedHash is so q = Outcome.ok (so1, q1) ∧
        so1.Perm so ∧ q1.siblings = q.siblings ∧ q1.upcomingEntropy = q.upcomingEntropy := by
  intro is
  induction is with
  | nil =>
    intro so q _ _
    exact ⟨so, q, rfl, List.Perm.refl _, rfl, rfl⟩
  | cons i rest ih =>
    intro so q hi hlen
    have hil : i < so.length := hi i (List.mem_cons_self _ _)
    have hlow : IsInt64 (i : Int) := by
      unfold IsInt64
      omega
    have hhigh : IsInt64 (so.length : Int) := by
      unfold IsInt64
      omega
    have hlt : (i : Int) < (so.length : Int) := by omega
    have hrange := randInt_range CalculateTruncatedHash q i so.length hlow hhigh hlt
    have herr := randInt_err_none CalculateTruncatedHash htotal q i so.length (Int.ne_of_lt hlt)
    have hfields := randInt_fields CalculateTruncatedHash q i so.length
    rcases hr : quorum.randInt CalculateTruncatedHash q (i : Int) (so.length : Int)
      with ⟨⟨v, e⟩, q1⟩
    rw [hr] at hrange herr hfields
    simp only at hrange herr hfields
    subst herr
    have hv0 : ¬ v < 0 := by omega
    have hvl : v.toNat < so.length := by omega
    obtain ⟨tmp, htmp⟩ : ∃ tmp, so[v.toNat]? = some tmp := ⟨so[v.toNat], by simp [hvl]⟩
    obtain ⟨si, hsi⟩ : ∃ si, so[i]? = some si := ⟨so[i], by simp [hil]⟩
    have hperm := swap_perm so v.toNat i tmp si htmp hsi
    have hlen2 : ((so.set v.toNat si).set i tmp).length = so.length := by simp
    obtain ⟨so1, q2, hres, hp, hs, hu⟩ := ih ((so.set v.toNat si).set i tmp) q1
      (by intro k hk; rw [hlen2]; exact hi k (List.mem_cons_of_mem _ hk))
      (by rw [hlen2]; exact hlen)
    refine ⟨so1, q2, ?_, hp.trans hperm, hs.trans hfields.1, hu.trans hfields.2⟩
    simp only [shuffleLoop, hr, hv0, if_false, htmp, hsi]
    exact hres



theorem occupiedFrom_mem : ∀ (l : List (Option Ptr)) (i : Nat) (b : Byte),
    i + l.length ≤ 256 → b ∈ occupiedFrom i l →
    i ≤ b.val ∧ ∃ p, l[b.val - i]? = some (some p) := by
  intro l
  induction l with
  | nil => intro i b _ hb; simp [occupiedFrom] at hb
  | cons s rest ih =>
    intro i b hlen hb
    simp only [List.length_cons] at hlen
    cases s with
    | none =>
      simp only [occupiedFrom] at hb
      obtain ⟨h1, p, hp⟩ := ih (i + 1) b (by omega) hb
      refine ⟨by omega, p, ?_⟩
      have : b.val - i = (b.val - (i + 1)) + 1 := by omega
      rw [this, List.getElem?_cons_succ]
      exact hp
    | some p0 =>
      simp only [occupiedFrom, List.mem_cons] at hb
      rcases hb with hb | hb
      · subst hb
        have hv : (toByte i).val = i := by
          simp only [toByte]
          omega
        rw [hv]
        exact ⟨Nat.le_refl i, p0, by simp⟩
      · obtain ⟨h1, p, hp⟩ := ih (i + 1) b (by omega) hb
        refine ⟨by omega, p, ?_⟩
        have : b.val - i = (b.val - (i + 1)) + 1 := by omega
        rw [this, List.getElem?_cons_succ]
        exact hp

theorem mem_occupiedFrom : ∀ (l : List (Option Ptr)) (i j : Nat) (p : Ptr),
    l[j]? = some (some p) → toByte (i + j) ∈ occupiedFrom i l := by
  intro l
  induction l with
  | nil => intro i j p h; simp at h
  | cons s rest ih =>
    intro i j p h
    cases j with
    | zero =>
      simp only [List.getElem?_cons_zero, Option.some.injEq] at h
      subst h
      simp [occupiedFrom]
    | succ j =>
      rw [List.getElem?_cons_succ] at h
      have hm := ih (i + 1) j p h
      have : i + 1 + j = i + (j + 1) := by omega
      rw [this] at hm
      cases s with
      | none => simpa [occupiedFrom] using hm
      | some p0 => simp [occupiedFrom, hm]

theorem occupiedFrom_sorted : ∀ (l : List (Option Ptr)) (i : Nat), i + l.length ≤ 256 →
    ((occupiedFrom i l).map Fin.val).Pairwise (· < ·) := by
  intro l
  induction l with
  | nil => intro i _; simp [occupiedFrom]
  | cons s rest ih =>
    intro i hlen
    simp only [List.length_cons] at hlen
    cases s with
    | none =>
      simp only [occupiedFrom]
      exact ih (i + 1) (by omega)
    | some p0 =>
      simp only [occupiedFrom, List.map_cons, List.pairwise_cons]
      refine ⟨?_, ih (i + 1) (by omega)⟩
      intro a ha
      obtain ⟨b, hb, rfl⟩ := List.mem_map.1 ha
      have h1 := (occupiedFrom_mem rest (i + 1) b (by omega) hb).1
      have hv : (toByte i).val = i := by
        simp only [toByte]
        omega
      rw [hv]
      omega

theorem occupiedFrom_length_le : ∀ (l : List (Option Ptr)) (i : Nat),
    (occupiedFrom i l).length ≤ l.length := by
  intro l
  induction l with
  | nil => intro i; simp [occupiedFrom]
  | cons s rest ih =>
    intro i
    cases s with
    | none =>
      simp only [occupiedFrom, List.length_cons]
      exact Nat.le_succ_of_le (ih (i + 1))
    | some p0 =>
      simp only [occupiedFrom, List.length_cons]
      exact Nat.succ_le_succ (ih (i + 1))

/-- C6: with a truncated hash that never fails and a slot table of at most 256
slots (slot positions are bytes), `siblingOrdering()` returns: it reaches neither
its fatal branch nor an index panic, and the list it returns holds every occupied
slot position of `q` exactly once and nothing else; for a quorum without occupied
slots it is the empty list. -/
theorem siblingOrdering_perm (CalculateTruncatedHash : List Byte → Entropy × Option Error)
    (q : quorum) (htotal : ∀ d, (CalculateTruncatedHash d).2 = none)
    (hsize : q.siblings.length ≤ 256) :
    ∃ so q1, quorum.siblingOrdering CalculateTruncatedHash q = Outcome.ok (so, q1) ∧
      (so.map Fin.val).Nodup ∧
      (∀ j : Nat, j ∈ so.map Fin.val ↔ ∃ p, q.siblings[j]? = some (some p)) ∧
      ((∀ j : Nat, ¬ ∃ p, q.siblings[j]? = some (some p)) → so = []) := by
  have hlen := occupiedFrom_length_le q.siblings 0
  obtain ⟨so, q1, hres, hperm, _, _⟩ := shuffleLoop_ok CalculateTruncatedHash htotal
    (List.range (occupiedFrom 0 q.siblings).length) (occupiedFrom 0 q.siblings) q
    (by intro i hi; exact List.mem_range.1 hi) (by omega)
  have hpermv : (so.map Fin.val).Perm ((occupiedFrom 0 q.siblings).map Fin.val) :=
    hperm.map Fin.val
  have hmem : ∀ j : Nat, j ∈ so.map Fin.val ↔ ∃ p, q.siblings[j]? = some (some p) := by
    intro j
    rw [hpermv.mem_iff]
    constructor
    · intro hj
      obtain ⟨b, hb, rfl⟩ := List.mem_map.1 hj
      obtain ⟨_, p, hp⟩ := occupiedFrom_mem q.siblings 0 b (by omega) hb
      exact ⟨p, by simpa using hp⟩
    · rintro ⟨p, hp⟩
      have hm := mem_occupiedFrom q.siblings 0 j p hp
      have hj : j < q.siblings.length := (List.getElem?_eq_some.1 hp).1
      refine List.mem_map.2 ⟨toByte (0 + j), hm, ?_⟩
      simp only [toByte]
      omega
  refine ⟨so, q1, hres, ?_, hmem, ?_⟩
  · exact hpermv.nodup_iff.2 (occupiedFrom_sorted q.siblings 0 (by omega)).nodup
  · intro hnone
    cases so with
    | nil => rfl
    | cons b rest =>
      exact absurd ((hmem b.val).1 (by simp)) (hnone b.val)

theorem siblingOrdering_perm_witness :
    (∀ d : List Byte, ((fun d => (d, none)) d : Entropy × Option Error).2 = none) ∧
    ([some 7, none, some 9].length ≤ 256) ∧
    ∃ so q1, quorum.siblingOrdering (fun d => (d, none)) ⟨[some 7, none, some 9], [1, 2, 3, 4], []⟩
        = Outcome.ok (so, q1) ∧ (so.map Fin.val).Nodup := by
  obtain ⟨so, q1, h1, h2, _, _⟩ := siblingOrdering_perm (fun d => (d, none))
    ⟨[some 7, none, some 9], [1, 2, 3, 4], []⟩ (fun _ => rfl) (by decide)
  exact ⟨fun _ => rfl, by decide, so, q1, h1, h2⟩




theorem randInt_congr (CalculateTruncatedHash : List Byte → Entropy × Option Error)
    (q1 q2 : quorum) (low high : Int) (he : q1.currentEntropy = q2.currentEntropy) :
    (quorum.randInt CalculateTruncatedHash q1 low high).1
      = (quorum.randInt CalculateTruncatedHash q2 low high).1 ∧
    (quorum.randInt CalculateTruncatedHash q1 low high).2.currentEntropy
      = (quorum.randInt CalculateTruncatedHash q2 low high).2.currentEntropy := by
  by_cases h : low = high <;> simp [quorum.randInt, h, he]

theorem shuffleLoop_congr (CalculateTruncatedHash : List Byte → Entropy × Option Error) :
    ∀ (is : List Nat) (so : List Byte) (q1 q2 : quorum),
      q1.currentEntropy = q2.currentEntropy →
      Outcome.map (fun r => (r.1, r.2.currentEntropy))
          (shuffleLoop CalculateTruncatedHash is so q1)
        = Outcome.map (fun r => (r.1, r.2.currentEntropy))
          (shuffleLoop CalculateTruncatedHash is so q2) := by
  intro is
  induction is with
  | nil =>
    intro so q1 q2 he
    simp [shuffleLoop, Outcome.map, he]
  | cons i rest ih =>
    intro so q1 q2 he
    have hc := randInt_congr CalculateTruncatedHash q1 q2 i so.length he
    rcases hr1 : quorum.randInt CalculateTruncatedHash q1 (i : Int) (so.length : Int)
      with ⟨⟨v1, e1⟩, r1⟩
    rcases hr2 : quorum.randInt CalculateTruncatedHash q2 (i : Int) (so.length : Int)
      with ⟨⟨v2, e2⟩, r2⟩
    rw [hr1, hr2] at hc
    simp only [Prod.mk.injEq] at hc
    obtain ⟨⟨hv, hee⟩, hent⟩ := hc
    subst hv hee
    simp only [shuffleLoop, hr1, hr2]
    cases e1 with
    | some err => rfl
    | none =>
      simp only
      by_cases hneg : v1 < 0
      · simp [hneg, Outcome.map]
      · simp only [hneg, if_false]
        cases h1 : so[v1.toNat]? with
        | none => rfl
        | some tmp =>
          cases h2 : so[i]? with
          | none => rfl
          | some si => exact ih _ r1 r2 hent

theorem occupiedFrom_congr : ∀ (l1 l2 : List (Option Ptr)) (i : Nat),
    l1.map Option.isSome = l2.map Option.isSome → occupiedFrom i l1 = occupiedFrom i l2 := by
  intro l1
  induction l1 with
  | nil =>
    intro l2 i h
    cases l2 with
    | nil => rfl
    | cons _ _ => simp at h
  | cons s1 r1 ih =>
    intro l2 i h
    cases l2 with
    | nil => simp at h
    | cons s2 r2 =>
      simp only [List.map_cons, List.cons.injEq] at h
      have hr := ih r2 (i + 1) h.2
      cases s1 <;> cases s2 <;> simp_all [occupiedFrom]

/-- C7: two quorums with equal `currentEntropy` and the same occupied slot
positions (whatever their siblings and `upcomingEntropy` are) get the same result
from `siblingOrdering()`: the same sequence, and equal `currentEntropy` afterwards. -/
theorem siblingOrdering_deterministic
    (CalculateTruncatedHash : List Byte → Entropy × Option Error) (q1 q2 : quorum)
    (hentropy : q1.currentEntropy = q2.currentEntropy)
    (hoccupied : q1.siblings.map Option.isSome = q2.siblings.map Option.isSome) :
    Outcome.map (fun r => (r.1, r.2.currentEntropy))
        (quorum.siblingOrdering CalculateTruncatedHash q1)
      = Outcome.map (fun r => (r.1, r.2.currentEntropy))
        (quorum.siblingOrdering CalculateTruncatedHash q2) := by
  simp only [quorum.siblingOrdering]
  rw [occupiedFrom_congr q1.siblings q2.siblings 0 hoccupied]
  exact shuffleLoop_congr CalculateTruncatedHash _ _ q1 q2 hentropy

theorem siblingOrdering_deterministic_witness :
    (⟨[some 1, none, some 5], [9, 8, 7, 6], [1]⟩ : quorum).currentEntropy
      = (⟨[some 3, none, some 4], [9, 8, 7, 6], [2, 2]⟩ : quorum).currentEntropy ∧
    (⟨[some 1, none, some 5], [9, 8, 7, 6], [1]⟩ : quorum).siblings.map Option.isSome
      = (⟨[some 3, none, some 4], [9, 8, 7, 6], [2, 2]⟩ : quorum).siblings.map Option.isSome ∧
    Outcome.map (fun r => (r.1, r.2.currentEntropy))
        (quorum.siblingOrdering (fun d => (d, none)) ⟨[some 1, none, some 5], [9, 8, 7, 6], [1]⟩)
      = Outcome.map (fun r => (r.1, r.2.currentEntropy))
        (quorum.siblingOrdering (fun d => (d, none)) ⟨[some 3, none, some 4], [9, 8, 7, 6], [2, 2]⟩) :=
  ⟨rfl, rfl, siblingOrdering_deterministic (fun d => (d, none))
    ⟨[some 1, none, some 5], [9, 8, 7, 6], [1]⟩ ⟨[some 3, none, some 4], [9, 8, 7, 6], [2, 2]⟩ rfl rfl⟩

/-! ## Heartbeat processing -/

theorem toByte_val {j : Nat} (h : j < 256) : (toByte j).val = j := by
  simp only [toByte]
  omega

theorem emptyFrom_ge : ∀ (l : List (Option Ptr)) (j e : Nat), e ∈ emptyFrom j l → j ≤ e := by
  intro l
  induction l with
  | nil => intro j e h; simp [emptyFrom] at h
  | cons s rest ih =>
    intro j e h
    cases s with
    | none =>
      simp only [emptyFrom, List.mem_cons] at h
      rcases h with h | h
      · omega
      · have := ih (j + 1) e h
        omega
    | some p =>
      simp only [emptyFrom] at h
      have := ih (j + 1) e h
      omega

theorem emptyFrom_mem : ∀ (l : List (Option Ptr)) (j e : Nat),
    e ∈ emptyFrom j l ↔ j ≤ e ∧ l[e - j]? = some none := by
  intro l
  induction l with
  | nil => intro j e; simp [emptyFrom]
  | cons s rest ih =>
    intro j e
    have hstep : j + 1 ≤ e → (s :: rest)[e - j]? = rest[e - (j + 1)]? := by
      intro h
      have : e - j = (e - (j + 1)) + 1 := by omega
      rw [this, List.getElem?_cons_succ]
    cases s with
    | none =>
      simp only [emptyFrom, List.mem_cons, ih]
      constructor
      · rintro (h | ⟨h1, h2⟩)
        · subst h
          simp
        · exact ⟨by omega, by rw [hstep h1]; exact h2⟩
      · rintro ⟨h1, h2⟩
        by_cases he : e = j
        · exact Or.inl he
        · have h3 : j + 1 ≤ e := by omega
          exact Or.inr ⟨h3, by rw [← hstep h3]; exact h2⟩
    | some p =>
      simp only [emptyFrom, ih]
      constructor
      · rintro ⟨h1, h2⟩
        exact ⟨by omega, by rw [hstep h1]; exact h2⟩
      · rintro ⟨h1, h2⟩
        by_cases he : e = j
        · subst he
          simp at h2
        · have h3 : j + 1 ≤ e := by omega
          exact ⟨h3, by rw [← hstep h3]; exact h2⟩

theorem emptyFrom_sorted : ∀ (l : List (Option Ptr)) (j : Nat),
    (emptyFrom j l).Pairwise (· < ·) := by
  intro l
  induction l with
  | nil => intro j; simp [emptyFrom]
  | cons s rest ih =>
    intro j
    cases s with
    | none =>
      simp only [emptyFrom, List.pairwise_cons]
      refine ⟨?_, ih (j + 1)⟩
      intro e he
      have := emptyFrom_ge rest (j + 1) e he
      omega
    | some p =>
      simp only [emptyFrom]
      exact ih (j + 1)

theorem emptyFrom_set_head : ∀ (l : List (Option Ptr)) (j e : Nat) (es : List Nat) (s : Ptr),
    emptyFrom j l = e :: es → emptyFrom j (l.set (e - j) (some s)) = es := by
  intro l
  induction l with
  | nil => intro j e es s h; simp [emptyFrom] at h
  | cons s0 rest ih =>
    intro j e es s h
    cases s0 with
    | none =>
      simp only [emptyFrom, List.cons.injEq] at h
      obtain ⟨h1, h2⟩ := h
      subst h1
      simp [emptyFrom, h2]
    | some p =>
      simp only [emptyFrom] at h
      have hge : j + 1 ≤ e := emptyFrom_ge rest (j + 1) e (by rw [h]; simp)
      have : e - j = (e - (j + 1)) + 1 := by omega
      rw [this, List.set_cons_succ]
      simp only [emptyFrom]
      exact ih (j + 1) e es s h

theorem placeHopeful_eq {Address : Type} (s : Ptr) :
    ∀ (n j : Nat) (st : HeartbeatState Address), j + n = st.q.siblings.length →
      placeHopeful s n j st =
        match emptyFrom j (st.q.siblings.drop j) with
        | [] => { st with log := st.log ++ [LogLine.full] }
        | e :: _ =>
          { heap := st.heap.setIndex s (toByte e)
            q := { st.q with siblings := st.q.siblings.set (toByte e).val (some s) }
            newSiblings := st.newSiblings ++ [s]
            log := st.log ++ [LogLine.placed e] } := by
  intro n
  induction n with
  | zero =>
    intro j st h
    have hd : st.q.siblings.drop j = [] := List.drop_eq_nil_of_le (by omega)
    simp [placeHopeful, hd, emptyFrom]
  | succ n ih =>
    intro j st h
    have hj : j < st.q.siblings.length := by omega
    have hd : st.q.siblings.drop j = st.q.siblings[j] :: st.q.siblings.drop (j + 1) :=
      List.drop_eq_getElem_cons hj
    have hg : st.q.siblings.getD j none = st.q.siblings[j] := by
      simp [List.getD_eq_getElem?_getD, List.getElem?_eq_getElem hj]
    rw [hd]
    simp only [placeHopeful, hg]
    cases hs : st.q.siblings[j] with
    | none =>
      simp [emptyFrom, Heap.setIndex]
    | some p =>
      simp only [emptyFrom]
      rw [ih (j + 1) st (by omega)]
      simp


theorem emptyFrom_lt (l : List (Option Ptr)) (e : Nat) (h : e ∈ emptyFrom 0 l) :
    e < l.length := by
  have h1 := ((emptyFrom_mem l 0 e).1 h).2
  simp only [Nat.sub_zero] at h1
  exact (List.getElem?_eq_some.1 h1).1

theorem hopefulsLoop_eq {Address : Type} (QuorumSize : Nat) (hQ : QuorumSize ≤ 256) :
    ∀ (hs : List Ptr) (st : HeartbeatState Address), st.q.siblings.length = QuorumSize →
      hopefulsLoop QuorumSize hs st =
        { heap := indexFold ((emptyFrom 0 st.q.siblings).zip hs) st.heap
          q := { st.q with
            siblings := slotFold ((emptyFrom 0 st.q.siblings).zip hs) st.q.siblings }
          newSiblings := st.newSiblings ++ ((emptyFrom 0 st.q.siblings).zip hs).map Prod.snd
          log := st.log
            ++ ((emptyFrom 0 st.q.siblings).zip hs).map (fun ep => LogLine.placed ep.1)
            ++ List.replicate (hs.length - (emptyFrom 0 st.q.siblings).length) LogLine.full } := by
  intro hs
  induction hs with
  | nil =>
    intro st _
    simp [hopefulsLoop, slotFold, indexFold]
  | cons h rest ih =>
    intro st hlen
    simp only [hopefulsLoop]
    rw [placeHopeful_eq h QuorumSize 0 st (by omega), List.drop_zero]
    cases hes : emptyFrom 0 st.q.siblings with
    | nil =>
      simp only
      have hih := ih { st with log := st.log ++ [LogLine.full] } hlen
      rw [hih]
      simp [hes, slotFold, indexFold, List.replicate_succ]
    | cons e es =>
      simp only
      have he : e < 256 := by
        have := emptyFrom_lt st.q.siblings e (by rw [hes]; simp)
        omega
      have hset := emptyFrom_set_head st.q.siblings 0 e es h hes
      simp only [Nat.sub_zero] at hset
      have hih := ih
        { heap := st.heap.setIndex h (toByte e)
          q := { st.q with siblings := st.q.siblings.set (toByte e).val (some h) }
          newSiblings := st.newSiblings ++ [h]
          log := st.log ++ [LogLine.placed e] } (by simp [hlen])
      rw [hih]
      simp [toByte_val he, hset, slotFold, indexFold, List.zip]


theorem map_fst_zip_take {α β : Type} : ∀ (l1 : List α) (l2 : List β),
    (l1.zip l2).map Prod.fst = l1.take l2.length := by
  intro l1
  induction l1 with
  | nil => intro l2; simp
  | cons a r ih =>
    intro l2
    cases l2 with
    | nil => simp
    | cons b r2 => simp [ih r2]

theorem map_snd_zip_take {α β : Type} : ∀ (l1 : List α) (l2 : List β),
    (l1.zip l2).map Prod.snd = l2.take l1.length := by
  intro l1
  induction l1 with
  | nil => intro l2; simp
  | cons a r ih =>
    intro l2
    cases l2 with
    | nil => simp
    | cons b r2 => simp [ih r2]

theorem slotFold_length : ∀ (ps : List (Nat × Ptr)) (siblings : List (Option Ptr)),
    (slotFold ps siblings).length = siblings.length := by
  intro ps
  induction ps with
  | nil => intro siblings; rfl
  | cons ep rest ih =>
    intro siblings
    obtain ⟨e, s⟩ := ep
    simp [slotFold, ih]

theorem slotFold_get_of_not_mem : ∀ (ps : List (Nat × Ptr)) (siblings : List (Option Ptr))
    (j : Nat), j ∉ ps.map Prod.fst → (slotFold ps siblings)[j]? = siblings[j]? := by
  intro ps
  induction ps with
  | nil => intro siblings j _; rfl
  | cons ep rest ih =>
    intro siblings j hj
    obtain ⟨e, s⟩ := ep
    simp only [List.map_cons, List.mem_cons, not_or] at hj
    simp only [slotFold]
    rw [ih _ j hj.2, List.getElem?_set_ne (Ne.symm hj.1)]

theorem slotFold_get : ∀ (ps : List (Nat × Ptr)) (siblings : List (Option Ptr))
    (i e : Nat) (s : Ptr), (ps.map Prod.fst).Nodup → ps[i]? = some (e, s) →
    e < siblings.length → (slotFold ps siblings)[e]? = some (some s) := by
  intro ps
  induction ps with
  | nil => intro siblings i e s _ h; simp at h
  | cons ep rest ih =>
    intro siblings i e s hnd h he
    obtain ⟨e0, s0⟩ := ep
    simp only [List.map_cons, List.nodup_cons] at hnd
    simp only [slotFold]
    cases i with
    | zero =>
      simp only [List.getElem?_cons_zero, Option.some.injEq, Prod.mk.injEq] at h
      obtain ⟨h1, h2⟩ := h
      subst h1 h2
      rw [slotFold_get_of_not_mem rest _ e0 hnd.1, List.getElem?_set_self he]
    | succ i =>
      rw [List.getElem?_cons_succ] at h
      exact ih _ i e s hnd.2 h (by simpa using he)

theorem indexFold_cell_of_not_mem {Address : Type} : ∀ (ps : List (Nat × Ptr))
    (heap : Heap Address) (p : Ptr), p ∉ ps.map Prod.snd →
    (indexFold ps heap).cell p = heap.cell p := by
  intro ps
  induction ps with
  | nil => intro heap p _; rfl
  | cons ep rest ih =>
    intro heap p hp
    obtain ⟨e, s⟩ := ep
    simp only [List.map_cons, List.mem_cons, not_or] at hp
    simp only [indexFold]
    rw [ih _ p hp.2]
    simp [Heap.setIndex, hp.1]

theorem indexFold_index {Address : Type} : ∀ (ps : List (Nat × Ptr)) (heap : Heap Address)
    (i e : Nat) (s : Ptr), ps[i]? = some (e, s) → s ∉ (ps.drop (i + 1)).map Prod.snd →
    ((indexFold ps heap).cell s).index = toByte e := by
  intro ps
  induction ps with
  | nil => intro heap i e s h; simp at h
  | cons ep rest ih =>
    intro heap i e s h hs
    obtain ⟨e0, s0⟩ := ep
    simp only [indexFold]
    cases i with
    | zero =>
      simp only [List.getElem?_cons_zero, Option.some.injEq, Prod.mk.injEq] at h
      obtain ⟨h1, h2⟩ := h
      subst h1 h2
      simp only [Nat.zero_add, List.drop_succ_cons, List.drop_zero] at hs
      rw [indexFold_cell_of_not_mem rest _ s0 hs]
      simp [Heap.setIndex]
    | succ i =>
      rw [List.getElem?_cons_succ] at h
      simp only [List.drop_succ_cons] at hs
      exact ih _ i e s h hs

theorem indexFold_fields {Address : Type} : ∀ (ps : List (Nat × Ptr)) (heap : Heap Address)
    (p : Ptr), ((indexFold ps heap).cell p).address = (heap.cell p).address ∧
      ((indexFold ps heap).cell p).publicKey = (heap.cell p).publicKey ∧
      (indexFold ps heap).next = heap.next := by
  intro ps
  induction ps with
  | nil => intro heap p; exact ⟨rfl, rfl, rfl⟩
  | cons ep rest ih =>
    intro heap p
    obtain ⟨e, s⟩ := ep
    simp only [indexFold]
    obtain ⟨h1, h2, h3⟩ := ih (heap.setIndex s (toByte e)) p
    rw [h1, h2, h3]
    by_cases hp : p = s <;> simp [Heap.setIndex, hp]

theorem emptyFrom_unique (siblings : List (Option Ptr)) (es : List Nat)
    (hsorted : es.Pairwise (· < ·)) (hes : ∀ j, j ∈ es ↔ siblings[j]? = some none) :
    es = emptyFrom 0 siblings := by
  have hs2 := emptyFrom_sorted siblings 0
  have hperm : es.Perm (emptyFrom 0 siblings) := by
    rw [List.perm_ext_iff_of_nodup hsorted.nodup hs2.nodup]
    intro j
    rw [hes j, emptyFrom_mem]
    simp
  exact List.eq_of_perm_of_sorted hperm hsorted hs2


theorem placedSlots_placed : ∀ (ps : List (Nat × Ptr)) (k : Nat),
    placedSlots (ps.map (fun ep => LogLine.placed ep.1) ++ List.replicate k LogLine.full)
      = ps.map Prod.fst := by
  intro ps
  induction ps with
  | nil =>
    intro k
    induction k with
    | zero => rfl
    | succ k ih => simpa [List.replicate_succ, placedSlots] using ih
  | cons ep rest ih =>
    intro k
    simp [placedSlots, ih k]

theorem processHeartbeat_eq {Address : Type} (QuorumSize : Nat)
    (CalculateTruncatedHash : List Byte → Entropy × Option Error)
    (heap : Heap Address) (q : quorum) (hb : heartbeat)
    (hlen : q.siblings.length = QuorumSize) (hQ : QuorumSize ≤ 256) :
    (quorum.processHeartbeat QuorumSize CalculateTruncatedHash heap q hb).1.1
      = ((emptyFrom 0 q.siblings).zip hb.hopefuls).map Prod.snd ∧
    (quorum.processHeartbeat QuorumSize CalculateTruncatedHash heap q hb).1.2
      = (CalculateTruncatedHash (q.upcomingEntropy ++ hb.entropy)).2 ∧
    (quorum.processHeartbeat QuorumSize CalculateTruncatedHash heap q hb).2.heap
      = indexFold ((emptyFrom 0 q.siblings).zip hb.hopefuls) heap ∧
    (quorum.processHeartbeat QuorumSize CalculateTruncatedHash heap q hb).2.q
      = { siblings := slotFold ((emptyFrom 0 q.siblings).zip hb.hopefuls) q.siblings
          currentEntropy := q.currentEntropy
          upcomingEntropy := (CalculateTruncatedHash (q.upcomingEntropy ++ hb.entropy)).1 } ∧
    placedSlots (quorum.processHeartbeat QuorumSize CalculateTruncatedHash heap q hb).2.log
      = ((emptyFrom 0 q.siblings).zip hb.hopefuls).map Prod.fst := by
  have h := hopefulsLoop_eq QuorumSize hQ hb.hopefuls
    ({ heap := heap, q := q, newSiblings := [], log := [] } : HeartbeatState Address) hlen
  simp only [quorum.processHeartbeat, h, List.nil_append, true_and]
  exact placedSlots_placed _ _

/-- C2: in a quorum of `QuorumSize ≤ 256` slots, one call of `processHeartbeat(hb)`
never places two hopefuls in the same slot: the slots it reports placing into are
pairwise distinct, there is one for each sibling of the returned `newSiblings`
list, each was empty before the call and holds that sibling after it; and the
number of occupied slots afterwards is at most `QuorumSize`. -/
theorem processHeartbeat_distinct_slots {Address : Type} (QuorumSize : Nat)
    (CalculateTruncatedHash : List Byte → Entropy × Option Error)
    (heap : Heap Address) (q : quorum) (hb : heartbeat)
    (hlen : q.siblings.length = QuorumSize) (hQ : QuorumSize ≤ 256) :
    (placedSlots (quorum.processHeartbeat QuorumSize CalculateTruncatedHash heap q hb).2.log).Nodup ∧
    (placedSlots (quorum.processHeartbeat QuorumSize CalculateTruncatedHash heap q hb).2.log).length
      = (quorum.processHeartbeat QuorumSize CalculateTruncatedHash heap q hb).1.1.length ∧
    (∀ (i j : Nat) (s : Ptr),
      (placedSlots (quorum.processHeartbeat QuorumSize CalculateTruncatedHash heap q hb).2.log)[i]?
        = some j →
      (quorum.processHeartbeat QuorumSize CalculateTruncatedHash heap q hb).1.1[i]? = some s →
      q.siblings[j]? = some none ∧
      (quorum.processHeartbeat QuorumSize CalculateTruncatedHash heap q hb).2.q.siblings[j]?
        = some (some s)) ∧
    (quorum.processHeartbeat QuorumSize CalculateTruncatedHash heap q hb).2.q.siblings.length
      = QuorumSize ∧
    (quorum.processHeartbeat QuorumSize CalculateTruncatedHash heap q hb).2.q.siblings.countP
      Option.isSome ≤ QuorumSize := by
  obtain ⟨h1, _, _, h4, h5⟩ :=
    processHeartbeat_eq QuorumSize CalculateTruncatedHash heap q hb hlen hQ
  rw [h1, h4, h5]
  have hnd : (((emptyFrom 0 q.siblings).zip hb.hopefuls).map Prod.fst).Nodup := by
    rw [map_fst_zip_take]
    exact ((emptyFrom_sorted q.siblings 0).nodup).sublist (List.take_sublist _ _)
  have hlen2 : (slotFold ((emptyFrom 0 q.siblings).zip hb.hopefuls) q.siblings).length
      = QuorumSize := by rw [slotFold_length, hlen]
  refine ⟨hnd, by simp, ?_, hlen2, ?_⟩
  · intro i j s hj hs
    rw [List.getElem?_map] at hj hs
    cases hp : ((emptyFrom 0 q.siblings).zip hb.hopefuls)[i]? with
    | none => simp [hp] at hj
    | some ep =>
      obtain ⟨e, p⟩ := ep
      simp only [hp, Option.map_some', Option.some.injEq] at hj hs
      subst hj hs
      have hmem : e ∈ emptyFrom 0 q.siblings := by
        have := (List.getElem?_zip_eq_some.1 hp).1
        exact List.getElem?_mem this
      have hempty := ((emptyFrom_mem q.siblings 0 e).1 hmem).2
      simp only [Nat.sub_zero] at hempty
      exact ⟨hempty, slotFold_get _ _ i e p hnd hp (emptyFrom_lt _ _ hmem)⟩
  · calc (slotFold ((emptyFrom 0 q.siblings).zip hb.hopefuls) q.siblings).countP Option.isSome
        ≤ (slotFold ((emptyFrom 0 q.siblings).zip hb.hopefuls) q.siblings).length :=
          List.countP_le_length _
      _ = QuorumSize := hlen2

theorem processHeartbeat_distinct_slots_witness :
    ([some 0, none, none, none] : List (Option Ptr)).length = 4 ∧ 4 ≤ 256 ∧
    (placedSlots (quorum.processHeartbeat 4 (fun d => (d, none))
      (⟨fun _ => ⟨0, 0, none⟩, 3⟩ : Heap Nat) ⟨[some 0, none, none, none], [], []⟩
      ⟨[], [1, 2]⟩).2.log).Nodup :=
  ⟨rfl, by decide,
    (processHeartbeat_distinct_slots 4 (fun d => (d, none))
      (⟨fun _ => ⟨0, 0, none⟩, 3⟩ : Heap Nat) ⟨[some 0, none, none, none], [], []⟩
      ⟨[], [1, 2]⟩ rfl (by decide)).1⟩


/-- C3, as stated, fails when a hopeful record occurs twice in the heartbeat: with
two empty slots and the hopefuls `[p, p]` (the same record `p` at address 0), slot 0
holds `h_1 = p` after the call, but the index field of `p` is 1, not 0. -/
theorem processHeartbeat_alias_index :
    (quorum.processHeartbeat 2 (fun d => (d, none))
      (⟨fun _ => ⟨0, 0, none⟩, 1⟩ : Heap Nat) ⟨[none, none], [], []⟩ ⟨[], [0, 0]⟩).2.q.siblings
      = [some 0, some 0] ∧
    ((quorum.processHeartbeat 2 (fun d => (d, none))
      (⟨fun _ => ⟨0, 0, none⟩, 1⟩ : Heap Nat) ⟨[none, none], [], []⟩ ⟨[], [0, 0]⟩).2.heap.cell
        0).index.val = 1 ∧
    (quorum.processHeartbeat 2 (fun d => (d, none))
      (⟨fun _ => ⟨0, 0, none⟩, 1⟩ : Heap Nat) ⟨[none, none], [], []⟩ ⟨[], [0, 0]⟩).1.1
      = [0, 0] := by
  decide

/-- C3, amended: in a quorum of `QuorumSize ≤ 256` slots whose empty slots in
ascending order are `e_1 < ... < e_m`, after `processHeartbeat(hb)` with hopefuls
`h_1..h_k` the slot `e_i` holds `h_i` for every `i ≤ min(k, m)`, and the index field
of `h_i` is `e_i` provided the record `h_i` does not occur again among the later
placed hopefuls (so for pairwise distinct hopeful records always); every other
slot is as before, so the hopefuls beyond `m` are placed nowhere; and the returned
list is `h_1..h_min(k,m)` in that order.  In particular with `QuorumSize = 4`, only
slot 0 occupied and one hopeful, the hopeful ends in slot 1 with index 1 and the
returned list has length 1. -/
theorem processHeartbeat_first_fit {Address : Type} (QuorumSize : Nat)
    (CalculateTruncatedHash : List Byte → Entropy × Option Error)
    (heap : Heap Address) (q : quorum) (hb : heartbeat) (es : List Nat)
    (hlen : q.siblings.length = QuorumSize) (hQ : QuorumSize ≤ 256)
    (hsorted : es.Pairwise (· < ·)) (hes : ∀ j, j ∈ es ↔ q.siblings[j]? = some none) :
    (∀ (i e : Nat) (h : Ptr), es[i]? = some e → hb.hopefuls[i]? = some h →
      (quorum.processHeartbeat QuorumSize CalculateTruncatedHash heap q hb).2.q.siblings[e]?
        = some (some h) ∧
      (h ∉ (hb.hopefuls.take es.length).drop (i + 1) →
        ((quorum.processHeartbeat QuorumSize CalculateTruncatedHash heap q hb).2.heap.cell
          h).index.val = e)) ∧
    (∀ j : Nat, j ∉ es.take hb.hopefuls.length →
      (quorum.processHeartbeat QuorumSize CalculateTruncatedHash heap q hb).2.q.siblings[j]?
        = q.siblings[j]?) ∧
    (quorum.processHeartbeat QuorumSize CalculateTruncatedHash heap q hb).1.1
      = hb.hopefuls.take es.length ∧
    (QuorumSize = 4 → ∀ p h : Ptr, q.siblings = [some p, none, none, none] →
      hb.hopefuls = [h] →
      (quorum.processHeartbeat QuorumSize CalculateTruncatedHash heap q hb).2.q.siblings
        = [some p, some h, none, none] ∧
      ((quorum.processHeartbeat QuorumSize CalculateTruncatedHash heap q hb).2.heap.cell
        h).index.val = 1 ∧
      (quorum.processHeartbeat QuorumSize CalculateTruncatedHash heap q hb).1.1.length = 1) := by
  have hu := emptyFrom_unique q.siblings es hsorted hes
  obtain ⟨h1, _, h3, h4, _⟩ :=
    processHeartbeat_eq QuorumSize CalculateTruncatedHash heap q hb hlen hQ
  rw [h1, h3, h4, ← hu]
  have hnd : ((es.zip hb.hopefuls).map Prod.fst).Nodup := by
    rw [map_fst_zip_take]
    exact (hsorted.nodup).sublist (List.take_sublist _ _)
  refine ⟨?_, ?_, map_snd_zip_take _ _, ?_⟩
  · intro i e h he hh
    have hp : (es.zip hb.hopefuls)[i]? = some (e, h) :=
      List.getElem?_zip_eq_some.2 ⟨he, hh⟩
    have hmem : e ∈ emptyFrom 0 q.siblings := by
      rw [← hu]
      exact List.getElem?_mem he
    have hel := emptyFrom_lt _ _ hmem
    refine ⟨slotFold_get _ _ i e h hnd hp hel, ?_⟩
    intro hnot
    rw [indexFold_index _ heap i e h hp (by rw [List.map_drop, map_snd_zip_take]; exact hnot)]
    exact toByte_val (by omega)
  · intro j hj
    exact slotFold_get_of_not_mem _ _ j (by rw [map_fst_zip_take]; exact hj)
  · intro _ p h hq hh
    have hes2 : es = [1, 2, 3] := by
      rw [hu, hq]
      rfl
    rw [hes2, hq, hh]
    refine ⟨rfl, ?_, rfl⟩
    simp [indexFold, Heap.setIndex, toByte]

theorem processHeartbeat_first_fit_witness :
    ([some 0, none, none, none] : List (Option Ptr)).length = 4 ∧ 4 ≤ 256 ∧
    ([1, 2, 3] : List Nat).Pairwise (· < ·) ∧
    (∀ j, j ∈ [1, 2, 3] ↔ ([some 0, none, none, none] : List (Option Ptr))[j]? = some none) ∧
    (quorum.processHeartbeat 4 (fun d => (d, none))
      (⟨fun _ => ⟨0, 0, none⟩, 2⟩ : Heap Nat) ⟨[some 0, none, none, none], [], []⟩
      ⟨[], [1]⟩).2.q.siblings = [some 0, some 1, none, none] :=
  have hmem : ∀ j, j ∈ [1, 2, 3]
      ↔ ([some 0, none, none, none] : List (Option Ptr))[j]? = some none := by
    intro j
    match j with
    | 0 => decide
    | 1 => decide
    | 2 => decide
    | 3 => decide
    | (n + 4) => simp
  ⟨rfl, by decide, by decide, hmem,
    ((processHeartbeat_first_fit 4 (fun d => (d, none))
      (⟨fun _ => ⟨0, 0, none⟩, 2⟩ : Heap Nat) ⟨[some 0, none, none, none], [], []⟩
      ⟨[], [1]⟩ [1, 2, 3] rfl (by decide) (by decide) hmem).2.2.2 rfl 0 1 rfl rfl).1⟩

/-! ## Gob codec -/

theorem Sibling_GobEncode_ok {Address : Type} (heap : Heap Address) (p : Ptr) (x y : Int)
    (hk : (heap.cell p).publicKey = some ⟨some x, some y⟩) :
    Sibling.GobEncode heap (some p)
      = ([GobField.index (heap.cell p).index, GobField.address (heap.cell p).address,
          GobField.publicKey x y], none) := by
  simp [Sibling.GobEncode, hk, PublicKey.gobEncode]

theorem Sibling_GobDecode_ok {Address : Type} (heap : Heap Address) (p : Nat) (b : Byte)
    (a : Address) (x y : Int) :
    (Sibling.GobDecode heap (some p)
      [GobField.index b, GobField.address a, GobField.publicKey x y]).1 = none ∧
    (Sibling.GobDecode heap (some p)
      [GobField.index b, GobField.address a, GobField.publicKey x y]).2.cell p
      = ⟨b, a, some ⟨some x, some y⟩⟩ ∧
    (∀ p1 : Nat, p1 ≠ p → (Sibling.GobDecode heap (some p)
      [GobField.index b, GobField.address a, GobField.publicKey x y]).2.cell p1
      = heap.cell p1) ∧
    (Sibling.GobDecode heap (some p)
      [GobField.index b, GobField.address a, GobField.publicKey x y]).2.next = heap.next := by
  refine ⟨rfl, ?_, ?_, rfl⟩
  · simp [Sibling.GobDecode, Heap.setIndex]
  · intro p1 hp
    simp [Sibling.GobDecode, Heap.setIndex, hp]

theorem mem_nonNilSiblings : ∀ (l : List (Option Ptr)) (p : Ptr),
    p ∈ nonNilSiblings l ↔ ∃ j : Nat, l[j]? = some (some p) := by
  intro l
  induction l with
  | nil => intro p; simp [nonNilSiblings]
  | cons s rest ih =>
    intro p
    cases s with
    | none =>
      simp only [nonNilSiblings, ih]
      constructor
      · rintro ⟨j, hj⟩
        exact ⟨j + 1, by simpa using hj⟩
      · rintro ⟨j, hj⟩
        cases j with
        | zero => simp at hj
        | succ j => exact ⟨j, by simpa using hj⟩
    | some p0 =>
      simp only [nonNilSiblings, List.mem_cons, ih]
      constructor
      · rintro (h | ⟨j, hj⟩)
        · exact ⟨0, by simp [h]⟩
        · exact ⟨j + 1, by simpa using hj⟩
      · rintro ⟨j, hj⟩
        cases j with
        | zero =>
          simp only [List.getElem?_cons_zero, Option.some.injEq] at hj
          exact Or.inl hj.symm
        | succ j => exact Or.inr ⟨j, by simpa using hj⟩

theorem encodeSiblingList_ok {Address : Type} (heap : Heap Address) : ∀ (ps : List Ptr),
    (∀ p ∈ ps, ∃ x y, (heap.cell p).publicKey = some ⟨some x, some y⟩) →
    encodeSiblingList heap ps
      = (ps.map (fun p => (Sibling.GobEncode heap (some p)).1), none) := by
  intro ps
  induction ps with
  | nil => intro _; rfl
  | cons p rest ih =>
    intro hk
    obtain ⟨x, y, hxy⟩ := hk p (List.mem_cons_self _ _)
    have hrest := ih (fun p1 hp1 => hk p1 (List.mem_cons_of_mem _ hp1))
    simp only [encodeSiblingList, Sibling_GobEncode_ok heap p x y hxy, hrest, List.map_cons]

theorem decodeSiblingList_ok {Address : Type} [Inhabited Address] (heap : Heap Address) :
    ∀ (ps : List Ptr) (heap0 : Heap Address),
    (∀ p ∈ ps, ∃ x y, (heap.cell p).publicKey = some ⟨some x, some y⟩) →
    ∃ ptrs heap1,
      decodeSiblingList heap0 (ps.map (fun p => (Sibling.GobEncode heap (some p)).1))
        = ((ptrs, none), heap1) ∧
      heap0.next ≤ heap1.next ∧
      (∀ p1 : Nat, p1 < heap0.next → heap1.cell p1 = heap0.cell p1) ∧
      List.Forall₂ (fun (ptr : Nat) p => heap0.next ≤ ptr ∧ heap1.cell ptr = heap.cell p) ptrs ps := by
  intro ps
  induction ps with
  | nil =>
    intro heap0 _
    exact ⟨[], heap0, rfl, Nat.le_refl _, fun _ _ => rfl, List.Forall₂.nil⟩
  | cons p rest ih =>
    intro heap0 hk
    obtain ⟨x, y, hxy⟩ := hk p (List.mem_cons_self _ _)
    have hd := Sibling_GobDecode_ok
      (heap0.alloc { index := 0, address := default, publicKey := none }).2 heap0.next
      (heap.cell p).index (heap.cell p).address x y
    rcases hdec : Sibling.GobDecode
      (heap0.alloc { index := 0, address := default, publicKey := none }).2 (some heap0.next)
      [GobField.index (heap.cell p).index, GobField.address (heap.cell p).address,
        GobField.publicKey x y] with ⟨e, heap2⟩
    rw [hdec] at hd
    simp only at hd
    obtain ⟨he, hcell, hother, hnext⟩ := hd
    subst he
    obtain ⟨ptrs, heap3, hres, hle, hkeep, hall⟩ :=
      ih heap2 (fun p1 hp1 => hk p1 (List.mem_cons_of_mem _ hp1))
    have hnext2 : heap2.next = heap0.next + 1 := by
      rw [hnext]
      rfl
    refine ⟨heap0.next :: ptrs, heap3, ?_, by omega, ?_, ?_⟩
    · simp only [List.map_cons, decodeSiblingList, Sibling_GobEncode_ok heap p x y hxy]
      have hdec2 : Sibling.GobDecode
          { cell := fun p1 => if p1 = heap0.next
              then { index := 0, address := default, publicKey := none } else heap0.cell p1,
            next := heap0.next + 1 } (some heap0.next)
          [GobField.index (heap.cell p).index, GobField.address (heap.cell p).address,
            GobField.publicKey x y] = (none, heap2) := hdec
      simp only [Heap.alloc, hdec2, hres]
    · intro p1 hp1
      have h1 : p1 < heap2.next := by omega
      have h2 : p1 ≠ heap0.next := by omega
      rw [hkeep p1 h1, hother p1 h2]
      simp only [Heap.alloc]
      rw [if_neg h2]
    · refine List.Forall₂.cons ⟨Nat.le_refl _, ?_⟩ ?_
      · rw [hkeep heap0.next (by omega), hcell, ← hxy]
      · exact hall.imp (fun {a b} h => ⟨by omega, h.2⟩)


theorem placeDecoded_ok {Address : Type} (QuorumSize : Nat) (heap heap1 : Heap Address) :
    ∀ (l : List (Option Ptr)) (k : Nat) (ptrs : List Ptr) (acc : List (Option Ptr)),
    List.Forall₂ (fun ptr p => heap1.cell ptr = heap.cell p) ptrs (nonNilSiblings l) →
    (∀ (j : Nat) (p : Ptr), l[j]? = some (some p) → (heap.cell p).index.val = k + j) →
    k + l.length = QuorumSize → acc.length = QuorumSize →
    ∃ acc1, placeDecoded QuorumSize heap1 ptrs acc = Outcome.ok acc1 ∧
      acc1.length = QuorumSize ∧
      (∀ j : Nat, j < k → acc1[j]? = acc[j]?) ∧
      ((∀ j : Nat, k ≤ j → acc[j]?.getD none = none) →
        ∀ j : Nat, (acc1[k + j]?.getD none).map heap1.cell
          = (l[j]?.getD none).map heap.cell) := by
  intro l
  induction l with
  | nil =>
    intro k ptrs acc hall _ _ hacc
    simp only [nonNilSiblings] at hall
    cases hall
    refine ⟨acc, rfl, hacc, fun _ _ => rfl, ?_⟩
    intro hnone j
    simp [hnone (k + j) (by omega)]
  | cons s rest ih =>
    intro k ptrs acc hall hidx hk hacc
    simp only [List.length_cons] at hk
    have hidx2 : ∀ (j : Nat) (p : Ptr), rest[j]? = some (some p) →
        (heap.cell p).index.val = k + 1 + j := by
      intro j p hj
      have := hidx (j + 1) p (by simpa using hj)
      omega
    cases s with
    | none =>
      simp only [nonNilSiblings] at hall
      obtain ⟨acc1, hres, hlen, hlow, hmap⟩ := ih (k + 1) ptrs acc hall hidx2 (by omega) hacc
      refine ⟨acc1, hres, hlen, fun j hj => hlow j (by omega), ?_⟩
      intro hnone j
      cases j with
      | zero =>
        simp only [Nat.add_zero, List.getElem?_cons_zero, Option.getD_some, Option.map_none']
        rw [hlow k (by omega), hnone k (Nat.le_refl k)]
        rfl
      | succ j =>
        have := hmap (fun j1 hj1 => hnone j1 (by omega)) j
        have he : k + (j + 1) = k + 1 + j := by omega
        rw [he, List.getElem?_cons_succ]
        exact this
    | some p =>
      simp only [nonNilSiblings] at hall
      cases hall with
      | cons hhead htail =>
        rename_i ptr ptrs1
        have hpk : (heap.cell p).index.val = k := by
          have := hidx 0 p (by simp)
          omega
        have hlt : (heap1.cell ptr).index.val < QuorumSize := by
          rw [hhead, hpk]
          omega
        obtain ⟨acc1, hres, hlen, hlow, hmap⟩ := ih (k + 1) ptrs1
          (acc.set (heap1.cell ptr).index.val (some ptr)) htail hidx2 (by omega)
          (by simpa using hacc)
        have hik : (heap1.cell ptr).index.val = k := by rw [hhead, hpk]
        refine ⟨acc1, ?_, hlen, ?_, ?_⟩
        · simp only [placeDecoded, hlt, if_true]
          exact hres
        · intro j hj
          rw [hlow j (by omega), hik, List.getElem?_set_ne (by omega)]
        · intro hnone j
          cases j with
          | zero =>
            simp only [Nat.add_zero, List.getElem?_cons_zero, Option.getD_some,
              Option.map_some']
            rw [hlow k (by omega), hik, List.getElem?_set_self (by omega)]
            simp [hhead]
          | succ j =>
            have := hmap (fun j1 hj1 => by
              rw [hik, List.getElem?_set_ne (by omega)]
              exact hnone j1 (by omega)) j
            have he : k + (j + 1) = k + 1 + j := by omega
            rw [he, List.getElem?_cons_succ]
            exact this

/-- C1: for a quorum `q` of `QuorumSize` slots in which each occupied slot `j` holds
a sibling whose index field is `j` and whose public key has both coordinates,
`GobEncode` succeeds, and `GobDecode` of its result into a fresh quorum (all slots
empty, zero entropy) succeeds and yields a quorum with the same slot table slot by
slot (an equal sibling record in each occupied slot, empty slots still empty) and
the same `currentEntropy` and `upcomingEntropy`. -/
theorem quorum_gob_round_trip {Address : Type} [Inhabited Address]
    (QuorumSize EntropySize : Nat) (heap heap0 : Heap Address) (q : quorum)
    (hlen : q.siblings.length = QuorumSize)
    (hslots : ∀ (j : Nat) (p : Ptr), q.siblings[j]? = some (some p) →
      (heap.cell p).index.val = j ∧
      ∃ x y, (heap.cell p).publicKey = some ⟨some x, some y⟩) :
    ∃ gobQuorum, quorum.GobEncode QuorumSize EntropySize heap (some q) = (gobQuorum, none) ∧
      ∃ heap1 q1,
        quorum.GobDecode QuorumSize EntropySize heap0
            (some (quorum.new QuorumSize EntropySize)) gobQuorum
          = Outcome.ok (none, heap1, q1) ∧
        q1.siblings.length = QuorumSize ∧
        (∀ j : Nat, (q1.siblings[j]?.getD none).map heap1.cell
          = (q.siblings[j]?.getD none).map heap.cell) ∧
        q1.currentEntropy = q.currentEntropy ∧
        q1.upcomingEntropy = q.upcomingEntropy := by
  have hkeys : ∀ p ∈ nonNilSiblings q.siblings,
      ∃ x y, (heap.cell p).publicKey = some ⟨some x, some y⟩ := by
    intro p hp
    obtain ⟨j, hj⟩ := (mem_nonNilSiblings q.siblings p).1 hp
    exact (hslots j p hj).2
  have henc := encodeSiblingList_ok heap (nonNilSiblings q.siblings) hkeys
  obtain ⟨ptrs, heap1, hdec, _, _, hall⟩ :=
    decodeSiblingList_ok heap (nonNilSiblings q.siblings) heap0 hkeys
  obtain ⟨acc1, hplace, hlen1, _, hmap⟩ := placeDecoded_ok QuorumSize heap heap1 q.siblings 0
    ptrs (List.replicate QuorumSize none) (hall.imp (fun {a b} h => h.2))
    (fun j p hj => by rw [(hslots j p hj).1]; omega) (by omega) (by simp)
  refine ⟨[GobValue.siblings
      ((nonNilSiblings q.siblings).map (fun p => (Sibling.GobEncode heap (some p)).1)),
    GobValue.entropy q.currentEntropy, GobValue.entropy q.upcomingEntropy], ?_, ?_⟩
  · simp only [quorum.GobEncode, henc, List.nil_append, List.cons_append]
  refine ⟨heap1, ⟨acc1, q.currentEntropy, q.upcomingEntropy⟩, ?_, hlen1, ?_, rfl, rfl⟩
  · simp only [quorum.GobDecode, hdec, quorum.new, hplace]
  · intro j
    have := hmap (by
      intro j1 _
      rw [List.getElem?_replicate]
      split <;> rfl) j
    simpa using this


theorem quorum_gob_round_trip_witness :
    ([some 0, none, some 1, none] : List (Option Ptr)).length = 4 ∧
    (∀ (j : Nat) (p : Ptr), ([some 0, none, some 1, none] : List (Option Ptr))[j]? = some (some p) →
      ((fun p : Ptr => if p = 0 then (⟨0, 10, some ⟨some 1, some 2⟩⟩ : Sibling Nat)
          else ⟨2, 11, some ⟨some 3, some 4⟩⟩) p).index.val = j ∧
      ∃ x y, ((fun p : Ptr => if p = 0 then (⟨0, 10, some ⟨some 1, some 2⟩⟩ : Sibling Nat)
          else ⟨2, 11, some ⟨some 3, some 4⟩⟩) p).publicKey = some ⟨some x, some y⟩) ∧
    ∃ gobQuorum, quorum.GobEncode 4 4
      (⟨fun p => if p = 0 then ⟨0, 10, some ⟨some 1, some 2⟩⟩
          else ⟨2, 11, some ⟨some 3, some 4⟩⟩, 2⟩ : Heap Nat)
      (some ⟨[some 0, none, some 1, none], [0, 0, 1, 2], [5]⟩) = (gobQuorum, none) :=
  have hslots : ∀ (j : Nat) (p : Ptr),
      ([some 0, none, some 1, none] : List (Option Ptr))[j]? = some (some p) →
      ((fun p : Ptr => if p = 0 then (⟨0, 10, some ⟨some 1, some 2⟩⟩ : Sibling Nat)
          else ⟨2, 11, some ⟨some 3, some 4⟩⟩) p).index.val = j ∧
      ∃ x y, ((fun p : Ptr => if p = 0 then (⟨0, 10, some ⟨some 1, some 2⟩⟩ : Sibling Nat)
          else ⟨2, 11, some ⟨some 3, some 4⟩⟩) p).publicKey = some ⟨some x, some y⟩ := by
    intro j p h
    match j with
    | 0 =>
      simp only [List.getElem?_cons_zero, Option.some.injEq] at h
      subst h
      exact ⟨rfl, 1, 2, rfl⟩
    | 1 => simp at h
    | 2 =>
      simp only [List.getElem?_cons_succ, List.getElem?_cons_zero, Option.some.injEq] at h
      subst h
      exact ⟨rfl, 3, 4, rfl⟩
    | 3 => simp at h
    | (n + 4) => simp at h
  have h := quorum_gob_round_trip 4 4
    (⟨fun p => if p = 0 then ⟨0, 10, some ⟨some 1, some 2⟩⟩
        else ⟨2, 11, some ⟨some 3, some 4⟩⟩, 2⟩ : Heap Nat)
    (⟨fun _ => ⟨0, 0, none⟩, 0⟩ : Heap Nat)
    ⟨[some 0, none, some 1, none], [0, 0, 1, 2], [5]⟩ rfl hslots
  ⟨rfl, hslots, h.elim (fun g hg => ⟨g, hg.1⟩)⟩

/-! ## The informed-swarm state machine -/

/-- C8: when `s.learning` is true or `b.Compiler` differs from `s.blockCompiler()`,
`handleBlock(b)` returns `s` itself, leaves every field of the state as it was
(`BlockHistory`, `hostsseen`, the heartbeat buffer, `stage2`, `learning`,
`broadcastcount`), and emits no transaction. -/
theorem handleBlock_rejects (RendezvousHash : List String → String → String)
    (hashedRandomData : String × String) (s : StateSwarmInformed) (b : Block)
    (h : s.learning = true ∨ b.Compiler ≠ s.blockCompiler RendezvousHash) :
    s.handleBlock RendezvousHash hashedRandomData b = Outcome.ok (NextState.self, s, []) := by
  rcases h with h | h
  · simp [StateSwarmInformed.handleBlock, h]
  · simp [StateSwarmInformed.handleBlock, h]

theorem handleBlock_rejects_witness :
    ((⟨[("a", 0)], 0, "", false, [], ⟨"a", "c", []⟩, ""⟩ : StateSwarmInformed).learning = true ∨
      (⟨"b1", "c", "z", [], []⟩ : Block).Compiler
        ≠ (⟨[("a", 0)], 0, "", false, [], ⟨"a", "c", []⟩, ""⟩ :
            StateSwarmInformed).blockCompiler (fun hosts _ => hosts.headD "")) ∧
    (⟨[("a", 0)], 0, "", false, [], ⟨"a", "c", []⟩, ""⟩ : StateSwarmInformed).handleBlock
        (fun hosts _ => hosts.headD "") ("s1", "s2") ⟨"b1", "c", "z", [], []⟩
      = Outcome.ok (NextState.self, ⟨[("a", 0)], 0, "", false, [], ⟨"a", "c", []⟩, ""⟩, []) :=
  ⟨Or.inr (by decide),
    handleBlock_rejects (fun hosts _ => hosts.headD "") ("s1", "s2")
      ⟨[("a", 0)], 0, "", false, [], ⟨"a", "c", []⟩, ""⟩ ⟨"b1", "c", "z", [], []⟩
      (Or.inr (by decide))⟩

/-- C9, as stated, fails once `BlockHistory` holds two blocks: with history
`[x, y]` the chain head is `y`, yet a heartbeat whose `Prevblock` is the id of `x`
(and not the id of the head) is added to the heartbeat buffer. -/
theorem handleTransaction_stale_heartbeat :
    (⟨"a", "c", [⟨"x", "c", "a", [], []⟩, ⟨"y", "c", "a", [], []⟩]⟩ : BlockChain).head
      = some ⟨"y", "c", "a", [], []⟩ ∧
    (⟨"h", "x", "s1"⟩ : HeartBeatTransaction).Prevblock ≠ (⟨"y", "c", "a", [], []⟩ : Block).Id ∧
    ((⟨[("a", 0)], 0, "", false, [],
        ⟨"a", "c", [⟨"x", "c", "a", [], []⟩, ⟨"y", "c", "a", [], []⟩]⟩, ""⟩ :
        StateSwarmInformed).handleTransaction (fun hosts _ => hosts.headD "")
      (Transaction.heartBeat ⟨"h", "x", "s1"⟩)).1.heartbeats = [⟨"h", "x", "s1"⟩] := by
  decide

/-- C9, amended: a `HeartBeatTransaction` whose `Prevblock` is not the id of the
first block `BlockHistory[0]`, or that arrives while `BlockHistory` is empty,
leaves the heartbeat buffer unchanged; so while `BlockHistory` holds at most one
block, a heartbeat whose `Prevblock` is not the id of the chain head leaves the
buffer unchanged. -/
theorem handleTransaction_heartbeat_filter (RendezvousHash : List String → String → String)
    (s : StateSwarmInformed) (t : HeartBeatTransaction) :
    ((∀ b0, s.chain.BlockHistory.head? = some b0 → t.Prevblock ≠ b0.Id) →
      (s.handleTransaction RendezvousHash (Transaction.heartBeat t)).1.heartbeats
        = s.heartbeats) ∧
    (s.chain.BlockHistory.length ≤ 1 →
      (∀ b, s.chain.head = some b → t.Prevblock ≠ b.Id) →
      (s.handleTransaction RendezvousHash (Transaction.heartBeat t)).1.heartbeats
        = s.heartbeats) := by
  have key : (∀ b0, s.chain.BlockHistory.head? = some b0 → t.Prevblock ≠ b0.Id) →
      (s.handleTransaction RendezvousHash (Transaction.heartBeat t)).1.heartbeats
        = s.heartbeats := by
    intro h
    simp only [StateSwarmInformed.handleTransaction]
    split
    · rfl
    · split
      · rfl
      · cases hh : s.chain.BlockHistory with
        | nil => rfl
        | cons b0 rest =>
          have := h b0 (by rw [hh]; rfl)
          simp [this]
  refine ⟨key, ?_⟩
  intro hlen hhead
  apply key
  intro b0 hb0
  apply hhead
  cases hh : s.chain.BlockHistory with
  | nil => rw [hh] at hb0; simp at hb0
  | cons b1 rest =>
    rw [hh] at hb0 hlen
    simp only [List.length_cons] at hlen
    have hr : rest = [] := List.eq_nil_of_length_eq_zero (by omega)
    subst hr
    simp only [List.head?_cons, Option.some.injEq] at hb0
    subst hb0
    simp [BlockChain.head, hh]

theorem handleTransaction_heartbeat_filter_witness :
    (∀ b0, (⟨[("a", 0)], 0, "", false, [], ⟨"a", "c", [⟨"x", "c", "a", [], []⟩]⟩, ""⟩ :
        StateSwarmInformed).chain.BlockHistory.head? = some b0 →
      (⟨"h", "w", "s1"⟩ : HeartBeatTransaction).Prevblock ≠ b0.Id) ∧
    ((⟨[("a", 0)], 0, "", false, [], ⟨"a", "c", [⟨"x", "c", "a", [], []⟩]⟩, ""⟩ :
        StateSwarmInformed).handleTransaction (fun hosts _ => hosts.headD "")
      (Transaction.heartBeat ⟨"h", "w", "s1"⟩)).1.heartbeats = [] :=
  have h : ∀ b0, (⟨[("a", 0)], 0, "", false, [], ⟨"a", "c", [⟨"x", "c", "a", [], []⟩]⟩, ""⟩ :
        StateSwarmInformed).chain.BlockHistory.head? = some b0 →
      (⟨"h", "w", "s1"⟩ : HeartBeatTransaction).Prevblock ≠ b0.Id := by
    intro b0 hb0
    simp only [List.head?_cons, Option.some.injEq] at hb0
    subst hb0
    decide
  ⟨h, (handleTransaction_heartbeat_filter (fun hosts _ => hosts.headD "")
    ⟨[("a", 0)], 0, "", false, [], ⟨"a", "c", [⟨"x", "c", "a", [], []⟩]⟩, ""⟩
    ⟨"h", "w", "s1"⟩).1 h⟩


/-- C10, as stated, fails when a majority of hosts is already known: with
`SWARMSIZE = 2`, two hosts seen, an empty `BlockHistory` and the local host elected,
the tick that ends learning also recomputes the compiler, empties the heartbeat
buffer and enqueues a block of type 1. -/
theorem onBlockgen_learning_generates_block :
    (⟨[("a", 0), ("b", 0)], 1, "", true, [⟨"h", "x", "s1"⟩], ⟨"a", "c", []⟩, ""⟩ :
        StateSwarmInformed).onBlockgen 2 (fun hosts _ => hosts.headD "") ("id", none)
      = Outcome.ok
          (⟨[("a", 0), ("b", 0)], 1, "", false, [], ⟨"a", "c", []⟩, "a"⟩,
            [Output.block ⟨"id", "c", "a", ["a", "b"], []⟩]) := by
  decide

/-- C10, amended: for a state with `learning = true` the periodic tick sets
`learning` to false and leaves `hostsseen` (no skip-count is incremented),
`broadcastcount`, `stage2` and the chain as they were.  If `hostsseen` holds at most
`SWARMSIZE/2` hosts it does nothing else: the heartbeat buffer is unchanged, the
elected compiler is not recomputed and no block is enqueued.  Otherwise the same
tick goes on to recompute the elected compiler, and when `BlockHistory` is empty and
the local host is elected it empties the heartbeat buffer and enqueues a block of
type 1. -/
theorem onBlockgen_learning (SWARMSIZE : Nat) (RendezvousHash : List String → String → String)
    (randomString : String × Option Error) (s : StateSwarmInformed)
    (hlearning : s.learning = true) :
    (∀ s1 out, s.onBlockgen SWARMSIZE RendezvousHash randomString = Outcome.ok (s1, out) →
      s1.learning = false ∧ s1.hostsseen = s.hostsseen ∧
      s1.broadcastcount = s.broadcastcount ∧ s1.stage2 = s.stage2 ∧ s1.chain = s.chain) ∧
    (s.hostsseen.length ≤ SWARMSIZE / 2 →
      s.onBlockgen SWARMSIZE RendezvousHash randomString
        = Outcome.ok ({ s with learning := false }, [])) ∧
    (SWARMSIZE / 2 < s.hostsseen.length →
      ∀ s1 out, s.onBlockgen SWARMSIZE RendezvousHash randomString = Outcome.ok (s1, out) →
        s1.compiler = s.blockCompiler RendezvousHash) ∧
    (SWARMSIZE / 2 < s.hostsseen.length → s.chain.BlockHistory = [] →
      s.blockCompiler RendezvousHash = s.chain.Host →
      ∀ id, randomString = (id, none) →
        s.onBlockgen SWARMSIZE RendezvousHash randomString
          = Outcome.ok
              ({ s with learning := false, compiler := s.chain.Host, heartbeats := [] },
                [Output.block
                  { Id := id, Blockchain := s.chain.Id, Compiler := s.chain.Host,
                    StorageMapping := s.hostsseen.map Prod.fst, EntropyStage1 := [] }])) := by
  obtain ⟨hostsseen, broadcastcount, stage2, learning, heartbeats, chain, compiler⟩ := s
  obtain ⟨Host, Id, hist⟩ := chain
  obtain ⟨rid, rerr⟩ := randomString
  simp only at hlearning
  subst hlearning
  refine ⟨?_, ?_, ?_, ?_⟩
  · intro s1 out h
    simp only [StateSwarmInformed.onBlockgen, StateSwarmInformed.blockCompiler, if_true] at h
    by_cases hle : hostsseen.length ≤ SWARMSIZE / 2
    · simp only [hle, if_true, Outcome.ok.injEq, Prod.mk.injEq] at h
      obtain ⟨h1, _⟩ := h
      subst h1
      exact ⟨rfl, rfl, rfl, rfl, rfl⟩
    · cases hist with
      | nil =>
        by_cases hc : RendezvousHash (eligibleHosts hostsseen) Host = Host <;>
          cases rerr <;> simp [hle, hc] at h <;>
          (obtain ⟨h1, _⟩ := h; subst h1; exact ⟨rfl, rfl, rfl, rfl, rfl⟩)
      | cons b0 rest =>
        cases rest with
        | nil =>
          by_cases hh : 2 < heartbeats.length <;>
            cases rerr <;> simp [hle, hh] at h <;>
            (obtain ⟨h1, _⟩ := h; subst h1; exact ⟨rfl, rfl, rfl, rfl, rfl⟩)
        | cons b1 rest2 =>
          simp [hle] at h
          obtain ⟨h1, _⟩ := h
          subst h1
          exact ⟨rfl, rfl, rfl, rfl, rfl⟩
  · intro hle
    simp only at hle
    simp [StateSwarmInformed.onBlockgen, hle]
  · intro hlt s1 out h
    simp only at hlt
    have hle : ¬ hostsseen.length ≤ SWARMSIZE / 2 := by omega
    simp only [StateSwarmInformed.onBlockgen, StateSwarmInformed.blockCompiler, if_true] at h
    simp only [StateSwarmInformed.blockCompiler]
    cases hist with
    | nil =>
      by_cases hc : RendezvousHash (eligibleHosts hostsseen) Host = Host <;>
        cases rerr <;> simp [hle, hc] at h <;>
        (obtain ⟨h1, _⟩ := h; subst h1; simp [hc])
    | cons b0 rest =>
      cases rest with
      | nil =>
        by_cases hh : 2 < heartbeats.length <;>
          cases rerr <;> simp [hle, hh] at h <;>
          (obtain ⟨h1, _⟩ := h; subst h1; rfl)
      | cons b1 rest2 =>
        simp [hle] at h
        obtain ⟨h1, _⟩ := h
        subst h1
        rfl
  · intro hlt hhist hcomp id hid
    simp only at hlt hhist
    have hle : ¬ hostsseen.length ≤ SWARMSIZE / 2 := by omega
    simp only [Prod.mk.injEq] at hid
    obtain ⟨hid1, hid2⟩ := hid
    subst hid1 hid2 hhist
    simp only [StateSwarmInformed.blockCompiler] at hcomp
    simp [StateSwarmInformed.onBlockgen, StateSwarmInformed.blockCompiler, hle, hcomp]

theorem onBlockgen_learning_witness :
    (⟨[("a", 0)], 1, "", true, [⟨"h", "x", "s1"⟩], ⟨"a", "c", []⟩, ""⟩ :
        StateSwarmInformed).learning = true ∧
    (⟨[("a", 0)], 1, "", true, [⟨"h", "x", "s1"⟩], ⟨"a", "c", []⟩, ""⟩ :
        StateSwarmInformed).onBlockgen 4 (fun hosts _ => hosts.headD "") ("id", none)
      = Outcome.ok (⟨[("a", 0)], 1, "", false, [⟨"h", "x", "s1"⟩], ⟨"a", "c", []⟩, ""⟩, []) :=
  ⟨rfl, (onBlockgen_learning 4 (fun hosts _ => hosts.headD "") ("id", none)
    ⟨[("a", 0)], 1, "", true, [⟨"h", "x", "s1"⟩], ⟨"a", "c", []⟩, ""⟩ rfl).2.1 (by decide)⟩

/-! ## Entropy chain: the range of `randInt` -/

/-- C18: for Go ints `low < high`, the value returned by `randInt(low, high)` lies
in the half-open range `[low, high)`. -/
theorem randInt_in_range (CalculateTruncatedHash : List Byte → Entropy × Option Error)
    (q : quorum) (low high : Int) (hlow : IsInt64 low) (hhigh : IsInt64 high)
    (hlt : low < high) :
    low ≤ (quorum.randInt CalculateTruncatedHash q low high).1.1 ∧
    (quorum.randInt CalculateTruncatedHash q low high).1.1 < high :=
  randInt_range CalculateTruncatedHash q low high hlow hhigh hlt

theorem randInt_in_range_witness :
    IsInt64 (-5) ∧ IsInt64 7 ∧ (-5 : Int) < 7 ∧
    (-5 : Int) ≤ (quorum.randInt (fun d => (d, none)) ⟨[], [255, 0, 1, 2], []⟩ (-5) 7).1.1 ∧
    (quorum.randInt (fun d => (d, none)) ⟨[], [255, 0, 1, 2], []⟩ (-5) 7).1.1 < 7 :=
  ⟨by decide, by decide, by decide,
    randInt_in_range (fun d => (d, none)) ⟨[], [255, 0, 1, 2], []⟩ (-5) 7
      (by decide) (by decide) (by decide)⟩

/-! ## Sibling encoding -/

/-- C13: `Sibling.GobEncode` returns an error and no output when the sibling
reference is nil, its `publicKey` is nil, or the key's `X` or `Y` coordinate is nil;
for a sibling with all of these present it returns no error and the stream holds
`index`, `address` and `publicKey`, in that order. -/
theorem Sibling_GobEncode_checks {Address : Type} (heap : Heap Address) :
    ((Sibling.GobEncode heap none).1 = [] ∧ (Sibling.GobEncode heap none).2 ≠ none) ∧
    (∀ p : Ptr, (heap.cell p).publicKey = none →
      (Sibling.GobEncode heap (some p)).1 = [] ∧ (Sibling.GobEncode heap (some p)).2 ≠ none) ∧
    (∀ (p : Ptr) (k : PublicKey), (heap.cell p).publicKey = some k → k.X = none →
      (Sibling.GobEncode heap (some p)).1 = [] ∧ (Sibling.GobEncode heap (some p)).2 ≠ none) ∧
    (∀ (p : Ptr) (k : PublicKey), (heap.cell p).publicKey = some k → k.Y = none →
      (Sibling.GobEncode heap (some p)).1 = [] ∧ (Sibling.GobEncode heap (some p)).2 ≠ none) ∧
    (∀ (p : Ptr) (x y : Int), (heap.cell p).publicKey = some ⟨some x, some y⟩ →
      Sibling.GobEncode heap (some p)
        = ([GobField.index (heap.cell p).index, GobField.address (heap.cell p).address,
            GobField.publicKey x y], none)) := by
  refine ⟨⟨rfl, by simp [Sibling.GobEncode]⟩, ?_, ?_, ?_, ?_⟩
  · intro p hk
    simp [Sibling.GobEncode, hk]
  · intro p k hk hx
    simp [Sibling.GobEncode, hk, hx]
  · intro p k hk hy
    obtain ⟨x, y⟩ := k
    simp only at hy
    subst hy
    cases x <;> simp [Sibling.GobEncode, hk]
  · intro p x y hk
    exact Sibling_GobEncode_ok heap p x y hk



/-! ## Heartbeat processing: entropy and frame -/

/-- C16: in a quorum of `QuorumSize ≤ 256` slots, `processHeartbeat(hb)` sets
`upcomingEntropy` to the truncated hash of the old `upcomingEntropy` followed by
`hb.entropy`, whatever happened to the hopefuls, and leaves `currentEntropy`
unchanged; every slot occupied before the call holds the same sibling after it,
with its address and public key untouched (and its index too, unless that very
record is also a placed hopeful); the error returned is the one of the hash, so
dropping hopefuls from a full quorum produces no error. -/
theorem processHeartbeat_entropy_frame {Address : Type} (QuorumSize : Nat)
    (CalculateTruncatedHash : List Byte → Entropy × Option Error)
    (heap : Heap Address) (q : quorum) (hb : heartbeat)
    (hlen : q.siblings.length = QuorumSize) (hQ : QuorumSize ≤ 256) :
    (quorum.processHeartbeat QuorumSize CalculateTruncatedHash heap q hb).2.q.upcomingEntropy
      = (CalculateTruncatedHash (q.upcomingEntropy ++ hb.entropy)).1 ∧
    (quorum.processHeartbeat QuorumSize CalculateTruncatedHash heap q hb).2.q.currentEntropy
      = q.currentEntropy ∧
    (∀ (j : Nat) (p : Ptr), q.siblings[j]? = some (some p) →
      (quorum.processHeartbeat QuorumSize CalculateTruncatedHash heap q hb).2.q.siblings[j]?
        = some (some p)) ∧
    (∀ p : Ptr,
      ((quorum.processHeartbeat QuorumSize CalculateTruncatedHash heap q hb).2.heap.cell
          p).address = (heap.cell p).address ∧
      ((quorum.processHeartbeat QuorumSize CalculateTruncatedHash heap q hb).2.heap.cell
          p).publicKey = (heap.cell p).publicKey) ∧
    (∀ p : Ptr, p ∉ (quorum.processHeartbeat QuorumSize CalculateTruncatedHash heap q hb).1.1 →
      (quorum.processHeartbeat QuorumSize CalculateTruncatedHash heap q hb).2.heap.cell p
        = heap.cell p) ∧
    (quorum.processHeartbeat QuorumSize CalculateTruncatedHash heap q hb).1.2
      = (CalculateTruncatedHash (q.upcomingEntropy ++ hb.entropy)).2 ∧
    ((∀ d, (CalculateTruncatedHash d).2 = none) →
      (quorum.processHeartbeat QuorumSize CalculateTruncatedHash heap q hb).1.2 = none) := by
  obtain ⟨h1, h2, h3, h4, _⟩ :=
    processHeartbeat_eq QuorumSize CalculateTruncatedHash heap q hb hlen hQ
  rw [h1, h2, h3, h4]
  refine ⟨rfl, rfl, ?_, ?_, ?_, rfl, fun htotal => htotal _⟩
  · intro j p hj
    rw [slotFold_get_of_not_mem _ _ j ?_]
    · exact hj
    · rw [map_fst_zip_take]
      intro hmem
      have hmem2 := List.mem_of_mem_take hmem
      have hempty := ((emptyFrom_mem q.siblings 0 j).1 hmem2).2
      simp only [Nat.sub_zero] at hempty
      rw [hj] at hempty
      simp at hempty
  · intro p
    have h := indexFold_fields ((emptyFrom 0 q.siblings).zip hb.hopefuls) heap p
    exact ⟨h.1, h.2.1⟩
  · intro p hp
    exact indexFold_cell_of_not_mem _ heap p hp

theorem processHeartbeat_entropy_frame_witness :
    ([some 0, some 1] : List (Option Ptr)).length = 2 ∧ 2 ≤ 256 ∧
    (quorum.processHeartbeat 2 (fun d => (d, none))
      (⟨fun _ => ⟨0, 0, none⟩, 3⟩ : Heap Nat) ⟨[some 0, some 1], [7], [8]⟩
      ⟨[9], [2]⟩).2.q.upcomingEntropy = [8, 9] :=
  ⟨rfl, by decide,
    (processHeartbeat_entropy_frame 2 (fun d => (d, none))
      (⟨fun _ => ⟨0, 0, none⟩, 3⟩ : Heap Nat) ⟨[some 0, some 1], [7], [8]⟩
      ⟨[9], [2]⟩ rfl (by decide)).1⟩

/-! ## The informed-swarm state machine: liveness announcements -/

theorem lookup_mapPut_self {β : Type} : ∀ (m : List (String × β)) (k : String) (v : β),
    (mapPut m k v).lookup k = some v := by
  intro m
  induction m with
  | nil => intro k v; simp [mapPut, List.lookup]
  | cons e rest ih =>
    intro k v
    obtain ⟨k1, v1⟩ := e
    by_cases h : k1 = k
    · simp [mapPut, h, List.lookup]
    · have hne : (k == k1) = false := by simpa using Ne.symm h
      simp [mapPut, h, List.lookup, hne, ih]

theorem lookup_mapPut_other {β : Type} : ∀ (m : List (String × β)) (k k2 : String) (v : β),
    k2 ≠ k → (mapPut m k v).lookup k2 = m.lookup k2 := by
  intro m
  induction m with
  | nil =>
    intro k k2 v h
    have hne : (k2 == k) = false := by simpa using h
    simp [mapPut, List.lookup, hne]
  | cons e rest ih =>
    intro k k2 v h
    obtain ⟨k1, v1⟩ := e
    by_cases h1 : k1 = k
    · subst h1
      have hne : (k2 == k1) = false := by simpa using h
      simp [mapPut, List.lookup, hne]
    · by_cases h2 : k2 = k1
      · subst h2
        simp [mapPut, h1, List.lookup]
      · have hne : (k2 == k1) = false := by simpa using h2
        simp [mapPut, h1, List.lookup, hne, ih k k2 v h]

theorem keys_mapPut {β : Type} : ∀ (m : List (String × β)) (k : String) (v : β),
    (mapPut m k v).map Prod.fst
      = if k ∈ m.map Prod.fst then m.map Prod.fst else m.map Prod.fst ++ [k] := by
  intro m
  induction m with
  | nil => intro k v; simp [mapPut]
  | cons e rest ih =>
    intro k v
    obtain ⟨k1, v1⟩ := e
    by_cases h : k1 = k
    · subst h
      simp [mapPut]
    · have hne : ¬ k = k1 := fun h2 => h h2.symm
      simp only [mapPut, h, if_false, List.map_cons, ih, List.mem_cons, hne, false_or]
      split <;> simp

theorem nodup_keys_mapPut {β : Type} (m : List (String × β)) (k : String) (v : β)
    (h : (m.map Prod.fst).Nodup) : ((mapPut m k v).map Prod.fst).Nodup := by
  rw [keys_mapPut]
  split
  · exact h
  · rename_i hk
    rw [List.nodup_append]
    refine ⟨h, by simp, ?_⟩
    intro a ha hb
    simp only [List.mem_singleton] at hb
    subst hb
    exact hk ha

/-- C17: for a `NodeAlive` transaction from host `n`: once learning has ended
`handleTransaction` leaves the whole state unchanged and requests no re-broadcast;
while learning it sets `hostsseen[n] = 0`, leaves every other host's skip-count and
all other fields unchanged (the hosts stay pairwise distinct map keys), and requests
a liveness re-broadcast if and only if, after the insertion, more than 2 hosts are
in `hostsseen` and `broadcastcount < 2`. -/
theorem handleTransaction_nodeAlive (RendezvousHash : List String → String → String)
    (s : StateSwarmInformed) (n : NodeAlive) :
    (s.learning = false →
      s.handleTransaction RendezvousHash (Transaction.nodeAlive n) = (s, [])) ∧
    (s.learning = true →
      (s.handleTransaction RendezvousHash (Transaction.nodeAlive n)).1
        = { s with hostsseen := mapPut s.hostsseen n.Node 0 } ∧
      (mapPut s.hostsseen n.Node 0).lookup n.Node = some 0 ∧
      (∀ host, host ≠ n.Node →
        (mapPut s.hostsseen n.Node 0).lookup host = s.hostsseen.lookup host) ∧
      ((s.hostsseen.map Prod.fst).Nodup →
        ((mapPut s.hostsseen n.Node 0).map Prod.fst).Nodup) ∧
      ((s.handleTransaction RendezvousHash (Transaction.nodeAlive n)).2 = [Output.broadcastLife]
        ↔ (2 < (mapPut s.hostsseen n.Node 0).length ∧ s.broadcastcount < 2)) ∧
      ((s.handleTransaction RendezvousHash (Transaction.nodeAlive n)).2 = []
        ↔ ¬ (2 < (mapPut s.hostsseen n.Node 0).length ∧ s.broadcastcount < 2))) := by
  constructor
  · intro h
    simp [StateSwarmInformed.handleTransaction, h]
  · intro h
    refine ⟨?_, lookup_mapPut_self _ _ _, fun host hne => lookup_mapPut_other _ _ _ _ hne,
      nodup_keys_mapPut _ _ _, ?_, ?_⟩
    · simp only [StateSwarmInformed.handleTransaction]
      rw [if_neg (by simp [h])]
      split <;> rfl
    · by_cases hc : 2 < (mapPut s.hostsseen n.Node 0).length ∧ s.broadcastcount < 2
      · simp [StateSwarmInformed.handleTransaction, h, hc]
      · have hc2 := hc
        rw [not_and] at hc2
        simp [StateSwarmInformed.handleTransaction, h, hc, hc2]
    · by_cases hc : 2 < (mapPut s.hostsseen n.Node 0).length ∧ s.broadcastcount < 2
      · simp [StateSwarmInformed.handleTransaction, h, hc]
      · have hc2 := hc
        rw [not_and] at hc2
        simp [StateSwarmInformed.handleTransaction, h, hc, hc2]



/-! ## The informed-swarm state machine: accepting blocks -/

/-- C12: when learning has ended, `BlockHistory` holds exactly one block and
`b.Compiler = s.blockCompiler()`, `handleBlock(b)` appends `b` to `BlockHistory`
(which then holds two blocks, the first one unchanged), changes nothing else, emits
nothing, and returns the Connected state if the local host is a key of
`b.StorageMapping` and the Join state otherwise; in every other case (learning,
compiler mismatch, history of length 0 or at least 2) `handleBlock` returns `s`
itself. -/
theorem handleBlock_second_block (RendezvousHash : List String → String → String)
    (hashedRandomData : String × String) (s : StateSwarmInformed) (b : Block) :
    (s.learning = false → s.chain.BlockHistory.length = 1 →
      b.Compiler = s.blockCompiler RendezvousHash →
      s.handleBlock RendezvousHash hashedRandomData b
        = Outcome.ok
            (if s.chain.Host ∈ b.StorageMapping then NextState.connected else NextState.join,
              { s with chain := { s.chain with BlockHistory := s.chain.BlockHistory ++ [b] } },
              []) ∧
      (s.chain.BlockHistory ++ [b]).length = 2 ∧
      (s.chain.BlockHistory ++ [b]).head? = s.chain.BlockHistory.head? ∧
      (s.chain.BlockHistory ++ [b]).getLast? = some b) ∧
    (¬ (s.learning = false ∧ s.chain.BlockHistory.length = 1 ∧
        b.Compiler = s.blockCompiler RendezvousHash) →
      ∃ s1 out, s.handleBlock RendezvousHash hashedRandomData b
        = Outcome.ok (NextState.self, s1, out)) := by
  constructor
  · intro hl hlen hc
    refine ⟨?_, by simp [hlen], ?_, by simp⟩
    · simp only [StateSwarmInformed.handleBlock, hl, hc, hlen, BlockChain.AddBlock]
      simp only [Bool.false_eq_true, if_false, ne_eq, not_true_eq_false, Nat.one_ne_zero,
        if_true]
      split <;> rfl
    · cases hh : s.chain.BlockHistory with
      | nil => rw [hh] at hlen; simp at hlen
      | cons b0 rest => simp
  · intro h
    by_cases hl : s.learning = true
    · exact ⟨s, [], by simp [StateSwarmInformed.handleBlock, hl]⟩
    · have hl2 : s.learning = false := by simpa using hl
      by_cases hc : b.Compiler = s.blockCompiler RendezvousHash
      · have hlen : s.chain.BlockHistory.length ≠ 1 := fun h1 => h ⟨hl2, h1, hc⟩
        by_cases h0 : s.chain.BlockHistory.length = 0
        · have hnil : s.chain.BlockHistory = [] := List.eq_nil_of_length_eq_zero h0
          by_cases hm : s.chain.Host ∈ b.StorageMapping
          · exact ⟨{ s with chain := s.chain.AddBlock b, stage2 := hashedRandomData.2 },
              [Output.transaction
                (Transaction.heartBeat (NewHeartBeat b s.chain.Host hashedRandomData.1))], by
              simp [StateSwarmInformed.handleBlock, hl2, hc, hnil, hm, BlockChain.AddBlock]⟩
          · exact ⟨{ s with chain := s.chain.AddBlock b, stage2 := hashedRandomData.2 }, [], by
              simp [StateSwarmInformed.handleBlock, hl2, hc, hnil, hm, BlockChain.AddBlock]⟩
        · exact ⟨s, [], by simp [StateSwarmInformed.handleBlock, hl2, hc, h0, hlen]⟩
      · exact ⟨s, [], by simp [StateSwarmInformed.handleBlock, hl2, hc]⟩



/-! ## The informed-swarm state machine: the majority check of the tick -/

/-- C11, as stated, fails when hosts with a non-zero skip-count make up the
majority: with `SWARMSIZE = 2` and `hostsseen = {a: 0, b: 1}` there is one eligible
host, which is at the threshold `SWARMSIZE/2 = 1`, yet the tick recomputes the
compiler and enqueues a block of type 1. -/
theorem onBlockgen_counts_all_hosts :
    (eligibleHosts [("a", 0), ("b", 1)]).length ≤ 2 / 2 ∧
    (⟨[("a", 0), ("b", 1)], 2, "", false, [], ⟨"a", "c", []⟩, ""⟩ :
        StateSwarmInformed).onBlockgen 2 (fun hosts _ => hosts.headD "") ("id", none)
      = Outcome.ok
          (⟨[("a", 0), ("b", 1)], 2, "", false, [], ⟨"a", "c", []⟩, "a"⟩,
            [Output.block ⟨"id", "c", "a", ["a", "b"], []⟩]) := by
  decide

/-- C11, amended: for a state with `learning = false` in which the number of hosts
in `hostsseen` (all hosts seen, whatever their skip-count, counted after the
skip-count increment that opens the tick) is at or below `SWARMSIZE/2`, the tick
skips the round: it returns with the elected compiler not recomputed, the
heartbeat buffer and the chain untouched, and no block enqueued.  The increment
adds no host when `BlockHistory` is not empty, no compiler has been elected yet, or
the elected compiler is one of `hostsseen`. -/
theorem onBlockgen_skips_round (SWARMSIZE : Nat)
    (RendezvousHash : List String → String → String)
    (randomString : String × Option Error) (s : StateSwarmInformed)
    (hlearning : s.learning = false)
    (hcount : s.markSkipped.hostsseen.length ≤ SWARMSIZE / 2) :
    s.onBlockgen SWARMSIZE RendezvousHash randomString = Outcome.ok (s.markSkipped, []) ∧
    s.markSkipped.compiler = s.compiler ∧
    s.markSkipped.heartbeats = s.heartbeats ∧
    s.markSkipped.chain = s.chain ∧
    s.markSkipped.learning = false ∧
    ((s.chain.BlockHistory ≠ [] ∨ s.compiler = "" ∨ s.compiler ∈ s.hostsseen.map Prod.fst) →
      s.markSkipped.hostsseen.map Prod.fst = s.hostsseen.map Prod.fst) := by
  have hrun : s.onBlockgen SWARMSIZE RendezvousHash randomString
      = Outcome.ok (s.markSkipped, []) := by
    have hc : (if s.learning = true then
          ({ s with learning := false } : StateSwarmInformed)
        else if s.chain.BlockHistory.length = 0 then
          if s.compiler ≠ "" then
            { s with hostsseen :=
                mapPut s.hostsseen s.compiler (wrapInt (mapGetInt s.hostsseen s.compiler + 1)) }
          else s
        else s).hostsseen.length ≤ SWARMSIZE / 2 := hcount
    simp only [StateSwarmInformed.onBlockgen]
    rw [if_pos hc]
    rfl
  refine ⟨hrun, ?_, ?_, ?_, ?_, ?_⟩
  · simp only [StateSwarmInformed.markSkipped, hlearning]
    split_ifs <;> rfl
  · simp only [StateSwarmInformed.markSkipped, hlearning]
    split_ifs <;> rfl
  · simp only [StateSwarmInformed.markSkipped, hlearning]
    split_ifs <;> rfl
  · simp only [StateSwarmInformed.markSkipped, hlearning]
    split_ifs <;> simp [hlearning]
  · intro hknown
    have hl : ¬ (s.learning = true) := by simp [hlearning]
    unfold StateSwarmInformed.markSkipped
    rw [if_neg hl]
    by_cases h0 : s.chain.BlockHistory.length = 0
    · rw [if_pos h0]
      have hnil : s.chain.BlockHistory = [] := List.eq_nil_of_length_eq_zero h0
      by_cases h1 : s.compiler ≠ ""
      · rw [if_pos h1]
        show (mapPut s.hostsseen s.compiler _).map Prod.fst = _
        rw [keys_mapPut]
        rcases hknown with hk | hk | hk
        · exact absurd hnil hk
        · exact absurd hk h1
        · rw [if_pos hk]
      · rw [if_neg h1]
    · rw [if_neg h0]

theorem onBlockgen_skips_round_witness :
    (⟨[("a", 0), ("b", 1)], 2, "", false, [], ⟨"a", "c", []⟩, "b"⟩ :
        StateSwarmInformed).learning = false ∧
    (⟨[("a", 0), ("b", 1)], 2, "", false, [], ⟨"a", "c", []⟩, "b"⟩ :
        StateSwarmInformed).markSkipped.hostsseen.length ≤ 5 / 2 ∧
    (⟨[("a", 0), ("b", 1)], 2, "", false, [], ⟨"a", "c", []⟩, "b"⟩ :
        StateSwarmInformed).onBlockgen 5 (fun hosts _ => hosts.headD "") ("id", none)
      = Outcome.ok (⟨[("a", 0), ("b", 2)], 2, "", false, [], ⟨"a", "c", []⟩, "b"⟩, []) :=
  ⟨rfl, by decide,
    (onBlockgen_skips_round 5 (fun hosts _ => hosts.headD "") ("id", none)
      ⟨[("a", 0), ("b", 1)], 2, "", false, [], ⟨"a", "c", []⟩, "b"⟩ rfl (by decide)).1⟩

/-! ## The informed-swarm state machine: the learning flag along a run -/

theorem mem_mapPut {β : Type} : ∀ (m : List (String × β)) (k : String) (v : β)
    (x : String × β), x ∈ mapPut m k v → x ∈ m ∨ x = (k, v) := by
  intro m
  induction m with
  | nil =>
    intro k v x hx
    simp only [mapPut, List.mem_singleton] at hx
    exact Or.inr hx
  | cons e rest ih =>
    intro k v x hx
    obtain ⟨k1, v1⟩ := e
    by_cases h : k1 = k
    · simp only [mapPut, h, if_true, List.mem_cons] at hx
      rcases hx with hx | hx
      · exact Or.inr hx
      · exact Or.inl (List.mem_cons_of_mem _ hx)
    · simp only [mapPut, h, if_false, List.mem_cons] at hx
      rcases hx with hx | hx
      · exact Or.inl (by rw [hx]; exact List.mem_cons_self _ _)
      · rcases ih k v x hx with h1 | h1
        · exact Or.inl (List.mem_cons_of_mem _ h1)
        · exact Or.inr h1

theorem onBlockgen_eq_generateBlocks (SWARMSIZE : Nat)
    (RendezvousHash : List String → String → String)
    (randomString : String × Option Error) (s : StateSwarmInformed) :
    s.onBlockgen SWARMSIZE RendezvousHash randomString
      = s.markSkipped.generateBlocks SWARMSIZE RendezvousHash randomString := rfl

theorem markSkipped_learning (s : StateSwarmInformed) : s.markSkipped.learning = false := by
  unfold StateSwarmInformed.markSkipped
  by_cases hl : s.learning = true
  · rw [if_pos hl]
  · have hl2 : s.learning = false := by simpa using hl
    rw [if_neg hl]
    split_ifs <;> exact hl2

theorem generateBlocks_frame (SWARMSIZE : Nat)
    (RendezvousHash : List String → String → String)
    (randomString : String × Option Error) (m s1 : StateSwarmInformed) (out : List Output)
    (h : m.generateBlocks SWARMSIZE RendezvousHash randomString = Outcome.ok (s1, out)) :
    s1.learning = m.learning ∧ s1.hostsseen = m.hostsseen := by
  obtain ⟨hostsseen, broadcastcount, stage2, learning, heartbeats, chain, compiler⟩ := m
  obtain ⟨Host, Id, hist⟩ := chain
  obtain ⟨rid, rerr⟩ := randomString
  simp only [StateSwarmInformed.generateBlocks, StateSwarmInformed.blockCompiler] at h
  by_cases hle : hostsseen.length ≤ SWARMSIZE / 2
  · simp only [hle, if_true, Outcome.ok.injEq, Prod.mk.injEq] at h
    obtain ⟨h1, _⟩ := h
    subst h1
    exact ⟨rfl, rfl⟩
  · cases hist with
    | nil =>
      by_cases hc : RendezvousHash (eligibleHosts hostsseen) Host = Host <;>
        cases rerr <;> simp [hle, hc] at h <;>
        (obtain ⟨h1, _⟩ := h; subst h1; exact ⟨rfl, rfl⟩)
    | cons b0 rest =>
      cases rest with
      | nil =>
        by_cases hh : 2 < heartbeats.length <;>
          cases rerr <;> simp [hle, hh] at h <;>
          (obtain ⟨h1, _⟩ := h; subst h1; exact ⟨rfl, rfl⟩)
      | cons b1 rest2 =>
        simp [hle] at h
        obtain ⟨h1, _⟩ := h
        subst h1
        exact ⟨rfl, rfl⟩



theorem handleBlock_frame (RendezvousHash : List String → String → String)
    (hashedRandomData : String × String) (s s1 : StateSwarmInformed) (b : Block)
    (ns : NextState) (out : List Output)
    (h : s.handleBlock RendezvousHash hashedRandomData b = Outcome.ok (ns, s1, out)) :
    s1.learning = s.learning ∧ s1.hostsseen = s.hostsseen := by
  simp only [StateSwarmInformed.handleBlock] at h
  split_ifs at h
  all_goals first
    | (simp only [Outcome.ok.injEq, Prod.mk.injEq] at h
       obtain ⟨_, h1, _⟩ := h
       subst h1
       exact ⟨rfl, rfl⟩)
    | (split at h
       · simp at h
       · simp only [Outcome.ok.injEq, Prod.mk.injEq] at h
         obtain ⟨_, h1, _⟩ := h
         subst h1
         exact ⟨rfl, rfl⟩)

theorem handleTransaction_frame (RendezvousHash : List String → String → String)
    (s : StateSwarmInformed) (t : Transaction) :
    (s.handleTransaction RendezvousHash t).1.learning = s.learning ∧
    (∀ x ∈ (s.handleTransaction RendezvousHash t).1.hostsseen, x ∈ s.hostsseen ∨ x.2 = 0) := by
  cases t with
  | nodeAlive n =>
    by_cases hl : s.learning = true
    · have hput : ∀ x ∈ mapPut s.hostsseen n.Node (0 : Int), x ∈ s.hostsseen ∨ x.2 = 0 := by
        intro x hx
        rcases mem_mapPut _ _ _ x hx with h1 | h1
        · exact Or.inl h1
        · exact Or.inr (by rw [h1])
      by_cases hc : 2 < (mapPut s.hostsseen n.Node (0 : Int)).length ∧ s.broadcastcount < 2
      · have hres : s.handleTransaction RendezvousHash (Transaction.nodeAlive n)
            = ({ s with hostsseen := mapPut s.hostsseen n.Node 0 }, [Output.broadcastLife]) := by
          simp only [StateSwarmInformed.handleTransaction]
          rw [if_neg (by simp [hl]), if_pos hc]
        rw [hres]
        exact ⟨rfl, hput⟩
      · have hres : s.handleTransaction RendezvousHash (Transaction.nodeAlive n)
            = ({ s with hostsseen := mapPut s.hostsseen n.Node 0 }, []) := by
          simp only [StateSwarmInformed.handleTransaction]
          rw [if_neg (by simp [hl]), if_neg hc]
        rw [hres]
        exact ⟨rfl, hput⟩
    · have hl2 : s.learning = false := by simpa using hl
      have hres : s.handleTransaction RendezvousHash (Transaction.nodeAlive n) = (s, []) := by
        simp [StateSwarmInformed.handleTransaction, hl2]
      rw [hres]
      exact ⟨rfl, fun x hx => Or.inl hx⟩
  | heartBeat n =>
    simp only [StateSwarmInformed.handleTransaction]
    split_ifs
    · exact ⟨rfl, fun x hx => Or.inl hx⟩
    · exact ⟨rfl, fun x hx => Or.inl hx⟩
    · split
      · split_ifs
        · exact ⟨rfl, fun x hx => Or.inl hx⟩
        · exact ⟨rfl, fun x hx => Or.inl hx⟩
      · exact ⟨rfl, fun x hx => Or.inl hx⟩
  | other => exact ⟨rfl, fun x hx => Or.inl hx⟩

theorem step_learning (SWARMSIZE : Nat) (RendezvousHash : List String → String → String)
    (s s1 : StateSwarmInformed) (e : Event) (out : List Output)
    (h : s.step SWARMSIZE RendezvousHash e = Outcome.ok (s1, out)) :
    (s.learning = false → s1.learning = false) ∧
    (s1.learning = true → ∀ x ∈ s1.hostsseen, x ∈ s.hostsseen ∨ x.2 = 0) := by
  cases e with
  | sendBroadcast =>
    simp only [StateSwarmInformed.step, StateSwarmInformed.onSendBroadcast, Outcome.ok.injEq,
      Prod.mk.injEq] at h
    obtain ⟨h1, _⟩ := h
    subst h1
    exact ⟨fun hl => hl, fun _ x hx => Or.inl hx⟩
  | sync =>
    simp only [StateSwarmInformed.step, Outcome.ok.injEq, Prod.mk.injEq] at h
    obtain ⟨h1, _⟩ := h
    subst h1
    exact ⟨fun hl => hl, fun _ x hx => Or.inl hx⟩
  | transaction t =>
    simp only [StateSwarmInformed.step, Outcome.ok.injEq] at h
    have hf := handleTransaction_frame RendezvousHash s t
    rw [h] at hf
    exact ⟨fun hl => hf.1.trans hl, fun _ => hf.2⟩
  | block b hashedRandomData =>
    simp only [StateSwarmInformed.step] at h
    split at h
    · rename_i ns s2 out2 hb
      simp only [Outcome.ok.injEq, Prod.mk.injEq] at h
      obtain ⟨h1, _⟩ := h
      subst h1
      have hf := handleBlock_frame RendezvousHash hashedRandomData s s2 b ns out2 hb
      exact ⟨fun hl => hf.1.trans hl, fun _ x hx => Or.inl (hf.2 ▸ hx)⟩
    · simp at h
    · simp at h
  | blockgen randomString =>
    simp only [StateSwarmInformed.step] at h
    rw [onBlockgen_eq_generateBlocks] at h
    have hf := generateBlocks_frame SWARMSIZE RendezvousHash randomString _ s1 out h
    have hm := markSkipped_learning s
    refine ⟨fun _ => hf.1.trans hm, fun hl => ?_⟩
    rw [hf.1, hm] at hl
    simp at hl

theorem run_learning (SWARMSIZE : Nat) (RendezvousHash : List String → String → String) :
    ∀ (events : List Event) (s s1 : StateSwarmInformed),
      StateSwarmInformed.run SWARMSIZE RendezvousHash s events = Outcome.ok s1 →
      (s.learning = false → s1.learning = false) ∧
      ((s.learning = true → ∀ x ∈ s.hostsseen, x.2 = 0) →
        s1.learning = true → ∀ x ∈ s1.hostsseen, x.2 = 0) := by
  intro events
  induction events with
  | nil =>
    intro s s1 h
    simp only [StateSwarmInformed.run, Outcome.ok.injEq] at h
    subst h
    exact ⟨fun hl => hl, fun hinv => hinv⟩
  | cons e rest ih =>
    intro s s1 h
    simp only [StateSwarmInformed.run] at h
    split at h
    · rename_i s2 out hstep
      obtain ⟨hmono, hhosts⟩ := step_learning SWARMSIZE RendezvousHash s s2 e out hstep
      obtain ⟨hmono2, hinv2⟩ := ih s2 s1 h
      refine ⟨fun hl => hmono2 (hmono hl), fun hinv => hinv2 ?_⟩
      intro hl2 x hx
      have hl : s.learning = true := by
        by_contra hne
        have hf : s.learning = false := by simpa using hne
        rw [hmono hf] at hl2
        simp at hl2
      rcases hhosts hl2 x hx with h1 | h1
      · exact hinv hl x h1
      · exact h1
    · simp at h
    · simp at h

/-- C20: in every run of the machine from its initial state (`learning = true`,
`hostsseen` empty) no event sets `learning` from false back to true, neither the
next one nor any later one, and in every state reached with `learning = true` every
host in `hostsseen` has skip-count 0. -/
theorem learning_monotone (SWARMSIZE : Nat) (RendezvousHash : List String → String → String)
    (chain : BlockChain) (events : List Event) (s : StateSwarmInformed)
    (hrun : StateSwarmInformed.run SWARMSIZE RendezvousHash (NewStateSwarmInformed chain).1
      events = Outcome.ok s) :
    (∀ (e : Event) (s1 : StateSwarmInformed) (out : List Output),
      s.step SWARMSIZE RendezvousHash e = Outcome.ok (s1, out) →
      s.learning = false → s1.learning = false) ∧
    (∀ (later : List Event) (s1 : StateSwarmInformed),
      StateSwarmInformed.run SWARMSIZE RendezvousHash s later = Outcome.ok s1 →
      s.learning = false → s1.learning = false) ∧
    (s.learning = true →
      ∀ (host : String) (skipped : Int), (host, skipped) ∈ s.hostsseen → skipped = 0) := by
  refine ⟨?_, ?_, ?_⟩
  · intro e s1 out hstep
    exact (step_learning SWARMSIZE RendezvousHash s s1 e out hstep).1
  · intro later s1 hlater
    exact (run_learning SWARMSIZE RendezvousHash later s s1 hlater).1
  · intro hl host skipped hmem
    have h := (run_learning SWARMSIZE RendezvousHash events _ s hrun).2
      (by intro _ x hx; simp [NewStateSwarmInformed] at hx) hl (host, skipped) hmem
    exact h

theorem learning_monotone_witness :
    StateSwarmInformed.run 4 (fun hosts _ => hosts.headD "")
        (NewStateSwarmInformed ⟨"a", "c", []⟩).1
        [Event.transaction (Transaction.nodeAlive ⟨"b", "c"⟩), Event.sendBroadcast]
      = Outcome.ok ⟨[("b", 0)], 1, "", true, [], ⟨"a", "c", []⟩, ""⟩ ∧
    ((⟨[("b", 0)], 1, "", true, [], ⟨"a", "c", []⟩, ""⟩ : StateSwarmInformed).learning = true →
      ∀ (host : String) (skipped : Int),
        (host, skipped) ∈ (⟨[("b", 0)], 1, "", true, [], ⟨"a", "c", []⟩, ""⟩ :
          StateSwarmInformed).hostsseen → skipped = 0) :=
  ⟨by decide,
    (learning_monotone 4 (fun hosts _ => hosts.headD "") ⟨"a", "c", []⟩
      [Event.transaction (Transaction.nodeAlive ⟨"b", "c"⟩), Event.sendBroadcast]
      ⟨[("b", 0)], 1, "", true, [], ⟨"a", "c", []⟩, ""⟩ (by decide)).2.2⟩

/-! ## Gob codec: decoding arbitrary streams -/

theorem Sibling_GobDecode_frame {Address : Type} (heap : Heap Address) (p : Nat)
    (g : List (GobField Address)) :
    (Sibling.GobDecode heap (some p) g).2.next = heap.next ∧
    (∀ p1 : Nat, p1 ≠ p → (Sibling.GobDecode heap (some p) g).2.cell p1 = heap.cell p1) ∧
    ((Sibling.GobDecode heap (some p) g).1 = none →
      ∃ b a x y rest, g = GobField.index b :: GobField.address a :: GobField.publicKey x y :: rest ∧
        (Sibling.GobDecode heap (some p) g).2.cell p = ⟨b, a, some ⟨some x, some y⟩⟩) := by
  rcases g with _ | ⟨f1, r1⟩
  · exact ⟨rfl, fun _ _ => rfl, fun h => by simp [Sibling.GobDecode] at h⟩
  · cases f1 with
    | address a => exact ⟨rfl, fun _ _ => rfl, fun h => by simp [Sibling.GobDecode] at h⟩
    | publicKey x y => exact ⟨rfl, fun _ _ => rfl, fun h => by simp [Sibling.GobDecode] at h⟩
    | index b =>
      rcases r1 with _ | ⟨f2, r2⟩
      · refine ⟨rfl, fun p1 hp => by simp [Sibling.GobDecode, Heap.setIndex, hp],
          fun h => by simp [Sibling.GobDecode] at h⟩
      · cases f2 with
        | index b2 =>
          refine ⟨rfl, fun p1 hp => by simp [Sibling.GobDecode, Heap.setIndex, hp],
            fun h => by simp [Sibling.GobDecode] at h⟩
        | publicKey x y =>
          refine ⟨rfl, fun p1 hp => by simp [Sibling.GobDecode, Heap.setIndex, hp],
            fun h => by simp [Sibling.GobDecode] at h⟩
        | address a =>
          rcases r2 with _ | ⟨f3, r3⟩
          · refine ⟨rfl, fun p1 hp => by simp [Sibling.GobDecode, Heap.setIndex, hp],
              fun h => by simp [Sibling.GobDecode] at h⟩
          · cases f3 with
            | index b3 =>
              refine ⟨rfl, fun p1 hp => by simp [Sibling.GobDecode, Heap.setIndex, hp],
                fun h => by simp [Sibling.GobDecode] at h⟩
            | address a3 =>
              refine ⟨rfl, fun p1 hp => by simp [Sibling.GobDecode, Heap.setIndex, hp],
                fun h => by simp [Sibling.GobDecode] at h⟩
            | publicKey x y =>
              refine ⟨rfl, fun p1 hp => by simp [Sibling.GobDecode, Heap.setIndex, hp],
                fun _ => ⟨b, a, x, y, r3, rfl, by simp [Sibling.GobDecode, Heap.setIndex]⟩⟩

theorem decodeSiblingList_general {Address : Type} [Inhabited Address] :
    ∀ (l : List (List (GobField Address))) (heap : Heap Address),
    heap.next ≤ (decodeSiblingList heap l).2.next ∧
    (∀ p : Nat, p < heap.next → (decodeSiblingList heap l).2.cell p = heap.cell p) ∧
    ((decodeSiblingList heap l).1.2 = none →
      List.Forall₂ (fun (ptr : Nat) g => heap.next ≤ ptr ∧
          ∃ b a x y rest,
            g = GobField.index b :: GobField.address a :: GobField.publicKey x y :: rest ∧
            (decodeSiblingList heap l).2.cell ptr = ⟨b, a, some ⟨some x, some y⟩⟩)
        (decodeSiblingList heap l).1.1 l) := by
  intro l
  induction l with
  | nil =>
    intro heap
    exact ⟨Nat.le_refl _, fun _ _ => rfl, fun _ => List.Forall₂.nil⟩
  | cons g rest ih =>
    intro heap
    have hf := Sibling_GobDecode_frame
      (heap.alloc { index := 0, address := default, publicKey := none }).2 heap.next g
    rcases hdec : Sibling.GobDecode
      (heap.alloc { index := 0, address := default, publicKey := none }).2 (some heap.next) g
      with ⟨e, heap2⟩
    rw [hdec] at hf
    simp only at hf
    obtain ⟨hnext, hother, hcell⟩ := hf
    have hnext2 : heap2.next = heap.next + 1 := by
      rw [hnext]
      rfl
    have hkeep2 : ∀ p : Nat, p < heap.next → heap2.cell p = heap.cell p := by
      intro p hp
      have hne : p ≠ heap.next := by omega
      rw [hother p hne]
      simp only [Heap.alloc]
      rw [if_neg hne]
    have hdec2 : Sibling.GobDecode
        { cell := fun p1 => if p1 = heap.next
            then { index := 0, address := default, publicKey := none } else heap.cell p1,
          next := heap.next + 1 } (some heap.next) g = (e, heap2) := hdec
    cases e with
    | some err =>
      have hres : decodeSiblingList heap (g :: rest) = (([], some err), heap2) := by
        simp only [decodeSiblingList, Heap.alloc, hdec2]
      rw [hres]
      exact ⟨by simp only; omega, hkeep2, fun h => by simp at h⟩
    | none =>
      obtain ⟨hle3, hkeep3, hall3⟩ := ih heap2
      rcases hrest : decodeSiblingList heap2 rest with ⟨⟨ptrs, e2⟩, heap3⟩
      rw [hrest] at hle3 hkeep3 hall3
      simp only at hle3 hkeep3 hall3
      cases e2 with
      | some err =>
        have hres : decodeSiblingList heap (g :: rest) = (([], some err), heap3) := by
          simp only [decodeSiblingList, Heap.alloc, hdec2, hrest]
        rw [hres]
        refine ⟨by simp only; omega, ?_, fun h => by simp at h⟩
        intro p hp
        have hp2 : p < heap2.next := by omega
        simp only
        rw [hkeep3 p hp2, hkeep2 p hp]
      | none =>
        have hres : decodeSiblingList heap (g :: rest)
            = ((heap.next :: ptrs, none), heap3) := by
          simp only [decodeSiblingList, Heap.alloc, hdec2, hrest]
        rw [hres]
        refine ⟨by simp only; omega, ?_, fun _ => ?_⟩
        · intro p hp
          have hp2 : p < heap2.next := by omega
          simp only
          rw [hkeep3 p hp2, hkeep2 p hp]
        · obtain ⟨b, a, x, y, r3, hg, hc⟩ := hcell rfl
          have hlt : heap.next < heap2.next := by omega
          refine List.Forall₂.cons ⟨Nat.le_refl _, b, a, x, y, r3, hg, ?_⟩ ?_
          · simp only
            rw [hkeep3 heap.next hlt, hc]
          · exact (hall3 rfl).imp (fun {ptr g1} h => ⟨by omega, h.2⟩)

theorem placeDecoded_eq_slotFold {Address : Type} (QuorumSize : Nat) (heap : Heap Address) :
    ∀ (ptrs : List Ptr) (siblings : List (Option Ptr)),
    (∀ s ∈ ptrs, (heap.cell s).index.val < QuorumSize) →
    placeDecoded QuorumSize heap ptrs siblings
      = Outcome.ok (slotFold (ptrs.map (fun s => ((heap.cell s).index.val, s))) siblings) := by
  intro ptrs
  induction ptrs with
  | nil => intro siblings _; rfl
  | cons s rest ih =>
    intro siblings h
    have hs := h s (List.mem_cons_self _ _)
    simp only [placeDecoded, hs, if_true, List.map_cons, slotFold]
    exact ih _ (fun s1 hs1 => h s1 (List.mem_cons_of_mem _ hs1))

theorem slotFold_inv : ∀ (ps : List (Nat × Ptr)) (siblings : List (Option Ptr)) (j : Nat)
    (p : Ptr), (slotFold ps siblings)[j]? = some (some p) →
    siblings[j]? = some (some p) ∨ (j, p) ∈ ps := by
  intro ps
  induction ps with
  | nil => intro siblings j p h; exact Or.inl h
  | cons ep rest ih =>
    intro siblings j p h
    obtain ⟨e, s⟩ := ep
    simp only [slotFold] at h
    rcases ih _ j p h with h1 | h1
    · by_cases hj : e = j
      · subst hj
        rw [List.getElem?_set] at h1
        split at h1
        · split at h1
          · simp only [Option.some.injEq] at h1
            subst h1
            exact Or.inr (List.mem_cons_self _ _)
          · simp at h1
        · exact Or.inl h1
      · rw [List.getElem?_set_ne hj] at h1
        exact Or.inl h1
    · exact Or.inr (List.mem_cons_of_mem _ h1)

/-! ## Gob codec: bad indices and the slot invariant -/

/-- C19, on the code: with `QuorumSize = 4`, decoding a stream whose sibling list
holds one well-formed sibling with index field 4 does not return an error; the
assignment `q.siblings[s.index] = s` indexes the slot table out of bounds and the
call aborts. -/
theorem quorum_GobDecode_index_out_of_range :
    quorum.GobDecode 4 4 (⟨fun _ => ⟨0, 0, none⟩, 0⟩ : Heap Nat) (some (quorum.new 4 4))
      [GobValue.siblings [[GobField.index 4, GobField.address 7, GobField.publicKey 1 2]],
        GobValue.entropy [0, 0, 0, 0], GobValue.entropy [0, 0, 0, 0]]
      = Outcome.panic "index out of range" := by
  rfl

/-- C15, as stated, fails when a hopeful is a record that the quorum already
holds: with slot 0 holding the record `p` (index 0) and slot 1 empty, the heartbeat
with the single hopeful `p` leaves slot 0 holding `p`, whose index field is now 1. -/
theorem processHeartbeat_rejoin_breaks_invariant :
    (∀ (j : Nat) (p : Ptr), ([some 0, none] : List (Option Ptr))[j]? = some (some p) →
      ((⟨fun _ => ⟨0, 0, none⟩, 1⟩ : Heap Nat).cell p).index.val = j) ∧
    ([0] : List Ptr).Nodup ∧
    (quorum.processHeartbeat 2 (fun d => (d, none))
      (⟨fun _ => ⟨0, 0, none⟩, 1⟩ : Heap Nat) ⟨[some 0, none], [], []⟩ ⟨[], [0]⟩).2.q.siblings[0]?
      = some (some 0) ∧
    ((quorum.processHeartbeat 2 (fun d => (d, none))
      (⟨fun _ => ⟨0, 0, none⟩, 1⟩ : Heap Nat) ⟨[some 0, none], [], []⟩ ⟨[], [0]⟩).2.heap.cell
        0).index.val = 1 := by
  refine ⟨?_, by decide, by decide, by decide⟩
  intro j p h
  match j with
  | 0 => rfl
  | 1 => simp at h
  | (n + 2) => simp at h



theorem forall₂_exists_right {α β : Type} {R : α → β → Prop} {l1 : List α} {l2 : List β}
    (h : List.Forall₂ R l1 l2) : ∀ a ∈ l1, ∃ b ∈ l2, R a b := by
  induction h with
  | nil => intro a ha; simp at ha
  | cons hab _ ih =>
    intro a ha
    rcases List.mem_cons.1 ha with h1 | h1
    · subst h1
      exact ⟨_, List.mem_cons_self _ _, hab⟩
    · obtain ⟨b, hb, hr⟩ := ih a h1
      exact ⟨b, List.mem_cons_of_mem _ hb, hr⟩

/-- C15, amended: if in a quorum `q` of `QuorumSize ≤ 256` slots every occupied slot
`j` holds a sibling whose index field equals `j`, then the same holds after
`processHeartbeat(hb)` for every heartbeat `hb` whose hopefuls are pairwise distinct
records none of which is already held in a slot of `q`; and it holds for the quorum
that `quorum.GobDecode` yields, with or without a decoding error, when it decodes
into a fresh quorum any stream whose siblings have indices below `QuorumSize`. -/
theorem slot_invariant_preserved {Address : Type} [Inhabited Address]
    (QuorumSize EntropySize : Nat)
    (CalculateTruncatedHash : List Byte → Entropy × Option Error)
    (heap : Heap Address) (q : quorum) (hb : heartbeat)
    (hlen : q.siblings.length = QuorumSize) (hQ : QuorumSize ≤ 256)
    (hinv : ∀ (j : Nat) (p : Ptr), q.siblings[j]? = some (some p) →
      (heap.cell p).index.val = j)
    (hdistinct : hb.hopefuls.Nodup)
    (hfresh : ∀ h ∈ hb.hopefuls, ∀ j : Nat, q.siblings[j]? ≠ some (some h)) :
    (∀ (j : Nat) (p : Ptr),
      (quorum.processHeartbeat QuorumSize CalculateTruncatedHash heap q hb).2.q.siblings[j]?
        = some (some p) →
      ((quorum.processHeartbeat QuorumSize CalculateTruncatedHash heap q hb).2.heap.cell
        p).index.val = j) ∧
    (∀ (heap0 : Heap Address) (gobQuorum : List (GobValue Address)),
      (∀ l rest, gobQuorum = GobValue.siblings l :: rest →
        ∀ g ∈ l, ∀ b r, g = GobField.index b :: r → b.val < QuorumSize) →
      ∃ err heap1 q1,
        quorum.GobDecode QuorumSize EntropySize heap0
            (some (quorum.new QuorumSize EntropySize)) gobQuorum
          = Outcome.ok (err, heap1, q1) ∧
        ∀ (j : Nat) (p : Ptr), q1.siblings[j]? = some (some p) →
          (heap1.cell p).index.val = j) := by
  constructor
  · obtain ⟨_, _, h3, h4, _⟩ :=
      processHeartbeat_eq QuorumSize CalculateTruncatedHash heap q hb hlen hQ
    rw [h3, h4]
    intro j p hj
    simp only at hj
    have hnd : (((emptyFrom 0 q.siblings).zip hb.hopefuls).map Prod.fst).Nodup := by
      rw [map_fst_zip_take]
      exact ((emptyFrom_sorted q.siblings 0).nodup).sublist (List.take_sublist _ _)
    rcases slotFold_inv _ _ j p hj with hold | hnew
    · have hp : p ∉ ((emptyFrom 0 q.siblings).zip hb.hopefuls).map Prod.snd := by
        rw [map_snd_zip_take]
        intro hmem
        exact hfresh p (List.mem_of_mem_take hmem) j hold
      rw [indexFold_cell_of_not_mem _ heap p hp]
      exact hinv j p hold
    · obtain ⟨i, hi⟩ := List.getElem?_of_mem hnew
      have hmem : j ∈ emptyFrom 0 q.siblings :=
        List.getElem?_mem (List.getElem?_zip_eq_some.1 hi).1
      have hjl := emptyFrom_lt _ _ hmem
      have hlater : p ∉ (((emptyFrom 0 q.siblings).zip hb.hopefuls).drop (i + 1)).map
          Prod.snd := by
        rw [List.map_drop, map_snd_zip_take]
        intro hmem2
        have hpi : (hb.hopefuls.take (emptyFrom 0 q.siblings).length)[i]? = some p := by
          rw [← map_snd_zip_take, List.getElem?_map, hi]
          rfl
        have hnd2 : (hb.hopefuls.take (emptyFrom 0 q.siblings).length).Nodup :=
          hdistinct.sublist (List.take_sublist _ _)
        obtain ⟨k, hk⟩ := List.getElem?_of_mem hmem2
        rw [List.getElem?_drop] at hk
        have hik := (List.getElem?_inj (List.getElem?_eq_some.1 hpi).1 hnd2
          (hpi.trans hk.symm))
        omega
      rw [indexFold_index _ heap i j p hi hlater]
      exact toByte_val (by omega)
  · intro heap0 gobQuorum hrange
    have hfreshq : ∀ (j : Nat) (p : Ptr),
        (List.replicate QuorumSize (none : Option Ptr))[j]? ≠ some (some p) := by
      intro j p h
      rw [List.getElem?_replicate] at h
      split at h <;> simp at h
    rcases gobQuorum with _ | ⟨v, r1⟩
    · exact ⟨_, _, _, rfl, fun j p h => absurd h (hfreshq j p)⟩
    · cases v with
      | entropy e => exact ⟨_, _, _, rfl, fun j p h => absurd h (hfreshq j p)⟩
      | siblings l =>
        obtain ⟨_, _, hall⟩ := decodeSiblingList_general l heap0
        rcases hdec : decodeSiblingList heap0 l with ⟨⟨ptrs, e⟩, heap1⟩
        rw [hdec] at hall
        simp only at hall
        cases e with
        | some err =>
          refine ⟨some err, heap1, quorum.new QuorumSize EntropySize, ?_,
            fun j p h => absurd h (hfreshq j p)⟩
          simp only [quorum.GobDecode, hdec]
        | none =>
          have hall2 := hall rfl
          have hidx : ∀ s ∈ ptrs, (heap1.cell s).index.val < QuorumSize := by
            intro s hs
            obtain ⟨g, hg, _, b, a, x, y, r3, hgeq, hc⟩ := forall₂_exists_right hall2 s hs
            rw [hc]
            exact hrange l r1 rfl g hg b _ hgeq
          have hplace := placeDecoded_eq_slotFold QuorumSize heap1 ptrs
            (List.replicate QuorumSize none) hidx
          have hinv1 : ∀ (j : Nat) (p : Ptr),
              (slotFold (ptrs.map (fun s => ((heap1.cell s).index.val, s)))
                (List.replicate QuorumSize none))[j]? = some (some p) →
              (heap1.cell p).index.val = j := by
            intro j p h
            rcases slotFold_inv _ _ j p h with h1 | h1
            · exact absurd h1 (hfreshq j p)
            · obtain ⟨s, _, hs⟩ := List.mem_map.1 h1
              simp only [Prod.mk.injEq] at hs
              obtain ⟨hs1, hs2⟩ := hs
              subst hs2
              exact hs1
          rcases r1 with _ | ⟨v1, r2⟩
          · simp only [quorum.GobDecode, hdec, quorum.new, hplace]
            exact ⟨_, _, _, rfl, hinv1⟩
          · cases v1 with
            | siblings l1 =>
              simp only [quorum.GobDecode, hdec, quorum.new, hplace]
              exact ⟨_, _, _, rfl, hinv1⟩
            | entropy e1 =>
              rcases r2 with _ | ⟨v2, r3⟩
              · simp only [quorum.GobDecode, hdec, quorum.new, hplace]
                exact ⟨_, _, _, rfl, hinv1⟩
              · cases v2 with
                | siblings l2 =>
                  simp only [quorum.GobDecode, hdec, quorum.new, hplace]
                  exact ⟨_, _, _, rfl, hinv1⟩
                | entropy e2 =>
                  simp only [quorum.GobDecode, hdec, quorum.new, hplace]
                  exact ⟨_, _, _, rfl, hinv1⟩



theorem slot_invariant_preserved_witness :
    ([some 0, none] : List (Option Ptr)).length = 2 ∧ 2 ≤ 256 ∧
    (∀ (j : Nat) (p : Ptr), ([some 0, none] : List (Option Ptr))[j]? = some (some p) →
      ((⟨fun _ => ⟨0, 0, none⟩, 2⟩ : Heap Nat).cell p).index.val = j) ∧
    ([1] : List Ptr).Nodup ∧
    (∀ h ∈ ([1] : List Ptr), ∀ j : Nat,
      ([some 0, none] : List (Option Ptr))[j]? ≠ some (some h)) ∧
    ((quorum.processHeartbeat 2 (fun d => (d, none))
      (⟨fun _ => ⟨0, 0, none⟩, 2⟩ : Heap Nat) ⟨[some 0, none], [], []⟩ ⟨[], [1]⟩).2.heap.cell
        1).index.val = 1 :=
  have hinv : ∀ (j : Nat) (p : Ptr),
      ([some 0, none] : List (Option Ptr))[j]? = some (some p) →
      ((⟨fun _ => ⟨0, 0, none⟩, 2⟩ : Heap Nat).cell p).index.val = j := by
    intro j p h
    match j with
    | 0 => rfl
    | 1 => simp at h
    | (n + 2) => simp at h
  have hfresh : ∀ h ∈ ([1] : List Ptr), ∀ j : Nat,
      ([some 0, none] : List (Option Ptr))[j]? ≠ some (some h) := by
    intro h hh j
    simp only [List.mem_singleton] at hh
    subst hh
    match j with
    | 0 => simp
    | 1 => simp
    | (n + 2) => simp
  ⟨rfl, by decide, hinv, by decide, hfresh,
    (slot_invariant_preserved 2 4 (fun d => (d, none))
      (⟨fun _ => ⟨0, 0, none⟩, 2⟩ : Heap Nat) ⟨[some 0, none], [], []⟩ ⟨[], [1]⟩
      rfl (by decide) hinv (by decide) hfresh).1 1 1 (by decide)⟩

/-! ## Gob codec: placement by embedded index -/

theorem gob_of_key {Address : Type} (r : Sibling Address) (x y : Int)
    (h : r.publicKey = some ⟨some x, some y⟩) :
    r.gob = [GobField.index r.index, GobField.address r.address, GobField.publicKey x y] := by
  simp only [Sibling.gob]
  rw [Sibling_GobEncode_ok (⟨fun _ => r, 0⟩ : Heap Address) 0 x y h]

theorem decodeSiblingList_succeeds {Address : Type} [Inhabited Address] :
    ∀ (l : List (List (GobField Address))) (heap : Heap Address),
    (∀ g ∈ l, ∃ b a x y, g = [GobField.index b, GobField.address a, GobField.publicKey x y]) →
    (decodeSiblingList heap l).1.2 = none := by
  intro l
  induction l with
  | nil => intro heap _; rfl
  | cons g rest ih =>
    intro heap h
    obtain ⟨b, a, x, y, hg⟩ := h g (List.mem_cons_self _ _)
    subst hg
    have hd := Sibling_GobDecode_ok
      (heap.alloc { index := 0, address := default, publicKey := none }).2 heap.next b a x y
    rcases hdec : Sibling.GobDecode
      (heap.alloc { index := 0, address := default, publicKey := none }).2 (some heap.next)
      [GobField.index b, GobField.address a, GobField.publicKey x y] with ⟨e, heap2⟩
    rw [hdec] at hd
    simp only at hd
    obtain ⟨he, _⟩ := hd
    subst he
    have hdec2 : Sibling.GobDecode
        { cell := fun p1 => if p1 = heap.next
            then { index := 0, address := default, publicKey := none } else heap.cell p1,
          next := heap.next + 1 } (some heap.next)
        [GobField.index b, GobField.address a, GobField.publicKey x y] = (none, heap2) := hdec
    have hrest := ih heap2 (fun g1 hg1 => h g1 (List.mem_cons_of_mem _ hg1))
    rcases hr : decodeSiblingList heap2 rest with ⟨⟨ptrs, e2⟩, heap3⟩
    rw [hr] at hrest
    simp only at hrest
    subst hrest
    simp only [decodeSiblingList, Heap.alloc, hdec2, hr]

theorem GobDecode_records {Address : Type} [Inhabited Address] (QuorumSize EntropySize : Nat)
    (L : List (Sibling Address)) (e1 e2 : Entropy) (heap0 : Heap Address)
    (hnodup : (L.map (fun r => r.index.val)).Nodup)
    (hrange : ∀ r ∈ L, r.index.val < QuorumSize)
    (hkeys : ∀ r ∈ L, ∃ x y, r.publicKey = some ⟨some x, some y⟩) :
    ∃ heap1 q1,
      quorum.GobDecode QuorumSize EntropySize heap0 (some (quorum.new QuorumSize EntropySize))
          [GobValue.siblings (L.map Sibling.gob), GobValue.entropy e1, GobValue.entropy e2]
        = Outcome.ok (none, heap1, q1) ∧
      q1.siblings.length = QuorumSize ∧
      (∀ r ∈ L, (q1.siblings[r.index.val]?.getD none).map heap1.cell = some r) ∧
      (∀ j : Nat, (∀ r ∈ L, r.index.val ≠ j) → q1.siblings[j]?.getD none = none) ∧
      q1.currentEntropy = e1 ∧ q1.upcomingEntropy = e2 := by
  have hshape : ∀ g ∈ L.map Sibling.gob,
      ∃ b a x y, g = [GobField.index b, GobField.address a, GobField.publicKey x y] := by
    intro g hg
    obtain ⟨r, hr, rfl⟩ := List.mem_map.1 hg
    obtain ⟨x, y, hxy⟩ := hkeys r hr
    exact ⟨r.index, r.address, x, y, gob_of_key r x y hxy⟩
  have hsucc := decodeSiblingList_succeeds (L.map Sibling.gob) heap0 hshape
  obtain ⟨_, _, hall⟩ := decodeSiblingList_general (L.map Sibling.gob) heap0
  rcases hdec : decodeSiblingList heap0 (L.map Sibling.gob) with ⟨⟨ptrs, e⟩, heap1⟩
  rw [hdec] at hall hsucc
  simp only at hall hsucc
  subst hsucc
  have hall2 := List.forall₂_map_right_iff.1 (hall rfl)
  have hrec : List.Forall₂ (fun (ptr : Nat) r => r ∈ L → heap1.cell ptr = r) ptrs L := by
    refine hall2.imp ?_
    intro ptr r h hr
    obtain ⟨_, b, a, x, y, rest, hg, hc⟩ := h
    obtain ⟨x1, y1, hxy⟩ := hkeys r hr
    rw [gob_of_key r x1 y1 hxy] at hg
    simp only [List.cons.injEq, GobField.index.injEq, GobField.address.injEq,
      GobField.publicKey.injEq] at hg
    obtain ⟨hb, ha, ⟨hx, hy⟩, _⟩ := hg
    subst hb ha hx hy
    rw [hc, ← hxy]
  have hlenp : ptrs.length = L.length := hall2.length_eq
  have hget : ∀ (i : Nat) (r : Sibling Address), L[i]? = some r →
      ∃ ptr, ptrs[i]? = some ptr ∧ heap1.cell ptr = r := by
    intro i r hi
    obtain ⟨hil, hir⟩ := List.getElem?_eq_some.1 hi
    have hip : i < ptrs.length := by omega
    have hrel := (List.forall₂_iff_get.1 hrec).2 i hip hil
    refine ⟨ptrs[i], by simp [hip], ?_⟩
    have := hrel (by
      show L.get ⟨i, hil⟩ ∈ L
      exact List.get_mem _ _ _)
    simpa [hir] using this
  have hidx : ∀ s ∈ ptrs, (heap1.cell s).index.val < QuorumSize := by
    intro s hs
    obtain ⟨r, hr, hrel⟩ := forall₂_exists_right hrec s hs
    rw [hrel hr]
    exact hrange r hr
  have hmapidx : ptrs.map (fun s => (heap1.cell s).index.val) = L.map (fun r => r.index.val) := by
    apply List.ext_getElem?
    intro i
    rw [List.getElem?_map, List.getElem?_map]
    cases hi : L[i]? with
    | none =>
      have : ptrs[i]? = none := by
        rw [List.getElem?_eq_none_iff] at hi ⊢
        omega
      rw [this]
      rfl
    | some r =>
      obtain ⟨ptr, hp, hc⟩ := hget i r hi
      rw [hp]
      simp [hc]
  have hplace := placeDecoded_eq_slotFold QuorumSize heap1 ptrs
    (List.replicate QuorumSize none) hidx
  have hfst : (ptrs.map (fun s => ((heap1.cell s).index.val, s))).map Prod.fst
      = L.map (fun r => r.index.val) := by
    rw [List.map_map, ← hmapidx]
    rfl
  refine ⟨heap1, ⟨slotFold (ptrs.map (fun s => ((heap1.cell s).index.val, s)))
      (List.replicate QuorumSize none), e1, e2⟩, ?_, ?_, ?_, ?_, rfl, rfl⟩
  · simp only [quorum.GobDecode, hdec, quorum.new, hplace]
  · simp [slotFold_length]
  · intro r hr
    obtain ⟨i, hi⟩ := List.getElem?_of_mem hr
    obtain ⟨ptr, hp, hc⟩ := hget i r hi
    have hps : (ptrs.map (fun s => ((heap1.cell s).index.val, s)))[i]?
        = some (r.index.val, ptr) := by
      rw [List.getElem?_map, hp]
      simp [hc]
    have hslot := slotFold_get _ (List.replicate QuorumSize none) i r.index.val ptr
      (by rw [hfst]; exact hnodup) hps (by simpa using hrange r hr)
    simp only
    rw [hslot]
    simp [hc]
  · intro j hj
    simp only
    rw [slotFold_get_of_not_mem _ _ j (by
      rw [hfst]
      intro hmem
      obtain ⟨r, hr, hrj⟩ := List.mem_map.1 hmem
      exact hj r hr hrj)]
    rw [List.getElem?_replicate]
    split <;> rfl



/-- C14: for every list `L` of (encodable) siblings with pairwise distinct index
fields all below `QuorumSize` and every permutation `L'` of `L`, decoding a stream
carrying `L` and decoding a stream carrying `L'`, with the same entropy values, into
fresh quorums both succeed and give the same slot table: each sibling `s` of `L`
sits in slot `s.index`, every other slot is empty, and the entropy values are those
of the stream. -/
theorem quorum_GobDecode_by_index {Address : Type} [Inhabited Address]
    (QuorumSize EntropySize : Nat) (L L1 : List (Sibling Address)) (e1 e2 : Entropy)
    (heap0 heap0' : Heap Address)
    (hperm : L.Perm L1)
    (hdistinct : (L.map (fun r => r.index)).Nodup)
    (hrange : ∀ r ∈ L, r.index.val < QuorumSize)
    (hkeys : ∀ r ∈ L, ∃ x y, r.publicKey = some ⟨some x, some y⟩) :
    ∃ heap1 q1 heap1' q1',
      quorum.GobDecode QuorumSize EntropySize heap0 (some (quorum.new QuorumSize EntropySize))
          [GobValue.siblings (L.map Sibling.gob), GobValue.entropy e1, GobValue.entropy e2]
        = Outcome.ok (none, heap1, q1) ∧
      quorum.GobDecode QuorumSize EntropySize heap0' (some (quorum.new QuorumSize EntropySize))
          [GobValue.siblings (L1.map Sibling.gob), GobValue.entropy e1, GobValue.entropy e2]
        = Outcome.ok (none, heap1', q1') ∧
      (∀ j : Nat, (q1.siblings[j]?.getD none).map heap1.cell
        = (q1'.siblings[j]?.getD none).map heap1'.cell) ∧
      (∀ r ∈ L, (q1.siblings[r.index.val]?.getD none).map heap1.cell = some r) ∧
      (∀ j : Nat, (∀ r ∈ L, r.index.val ≠ j) → q1.siblings[j]?.getD none = none) ∧
      q1.siblings.length = QuorumSize ∧ q1'.siblings.length = QuorumSize ∧
      q1.currentEntropy = q1'.currentEntropy ∧ q1.upcomingEntropy = q1'.upcomingEntropy := by
  have hnd : (L.map (fun r => r.index.val)).Nodup := by
    have := hdistinct.map Fin.val_injective
    simpa [List.map_map] using this
  have hnd1 : (L1.map (fun r => r.index.val)).Nodup :=
    (hperm.map (fun r => r.index.val)).nodup_iff.1 hnd
  obtain ⟨heap1, q1, hdec, hlen, hslot, hempty, hc, hu⟩ :=
    GobDecode_records QuorumSize EntropySize L e1 e2 heap0 hnd hrange hkeys
  obtain ⟨heap1', q1', hdec', hlen', hslot', hempty', hc', hu'⟩ :=
    GobDecode_records QuorumSize EntropySize L1 e1 e2 heap0' hnd1
      (fun r hr => hrange r (hperm.mem_iff.2 hr)) (fun r hr => hkeys r (hperm.mem_iff.2 hr))
  refine ⟨heap1, q1, heap1', q1', hdec, hdec', ?_, hslot, hempty, hlen, hlen',
    hc.trans hc'.symm, hu.trans hu'.symm⟩
  intro j
  by_cases hj : ∃ r ∈ L, r.index.val = j
  · obtain ⟨r, hr, hrj⟩ := hj
    subst hrj
    rw [hslot r hr, hslot' r (hperm.mem_iff.1 hr)]
  · have hj1 : ∀ r ∈ L, r.index.val ≠ j := fun r hr h => hj ⟨r, hr, h⟩
    rw [hempty j hj1, hempty' j (fun r hr => hj1 r (hperm.mem_iff.2 hr))]
    rfl

theorem quorum_GobDecode_by_index_witness :
    ([⟨2, 10, some ⟨some 1, some 2⟩⟩, ⟨0, 11, some ⟨some 3, some 4⟩⟩] : List (Sibling Nat)).Perm
      [⟨0, 11, some ⟨some 3, some 4⟩⟩, ⟨2, 10, some ⟨some 1, some 2⟩⟩] ∧
    (([⟨2, 10, some ⟨some 1, some 2⟩⟩, ⟨0, 11, some ⟨some 3, some 4⟩⟩] :
      List (Sibling Nat)).map (fun r => r.index)).Nodup ∧
    (∀ r ∈ ([⟨2, 10, some ⟨some 1, some 2⟩⟩, ⟨0, 11, some ⟨some 3, some 4⟩⟩] :
      List (Sibling Nat)), r.index.val < 4) ∧
    (∀ r ∈ ([⟨2, 10, some ⟨some 1, some 2⟩⟩, ⟨0, 11, some ⟨some 3, some 4⟩⟩] :
      List (Sibling Nat)), ∃ x y, r.publicKey = some ⟨some x, some y⟩) ∧
    ∃ heap1 q1,
      quorum.GobDecode 4 4 (⟨fun _ => ⟨0, 0, none⟩, 0⟩ : Heap Nat) (some (quorum.new 4 4))
          [GobValue.siblings (([⟨2, 10, some ⟨some 1, some 2⟩⟩,
              ⟨0, 11, some ⟨some 3, some 4⟩⟩] : List (Sibling Nat)).map Sibling.gob),
            GobValue.entropy [1], GobValue.entropy [2]]
        = Outcome.ok (none, heap1, q1) :=
  have hrange : ∀ r ∈ ([⟨2, 10, some ⟨some 1, some 2⟩⟩, ⟨0, 11, some ⟨some 3, some 4⟩⟩] :
      List (Sibling Nat)), r.index.val < 4 := by
    intro r hr
    simp only [List.mem_cons, List.mem_singleton, List.not_mem_nil, or_false] at hr
    rcases hr with h | h <;> subst h <;> decide
  have hkeys : ∀ r ∈ ([⟨2, 10, some ⟨some 1, some 2⟩⟩, ⟨0, 11, some ⟨some 3, some 4⟩⟩] :
      List (Sibling Nat)), ∃ x y, r.publicKey = some ⟨some x, some y⟩ := by
    intro r hr
    simp only [List.mem_cons, List.mem_singleton, List.not_mem_nil, or_false] at hr
    rcases hr with h | h
    · exact ⟨1, 2, by rw [h]⟩
    · exact ⟨3, 4, by rw [h]⟩
  have h := quorum_GobDecode_by_index 4 4
    ([⟨2, 10, some ⟨some 1, some 2⟩⟩, ⟨0, 11, some ⟨some 3, some 4⟩⟩] : List (Sibling Nat))
    [⟨0, 11, some ⟨some 3, some 4⟩⟩, ⟨2, 10, some ⟨some 1, some 2⟩⟩] [1] [2]
    (⟨fun _ => ⟨0, 0, none⟩, 0⟩ : Heap Nat) (⟨fun _ => ⟨0, 0, none⟩, 0⟩ : Heap Nat)
    (List.Perm.swap _ _ _) (by decide) hrange hkeys
  ⟨List.Perm.swap _ _ _, by decide, hrange, hkeys,
    h.elim (fun heap1 h1 => h1.elim (fun q1 h2 => ⟨heap1, q1, h2.elim (fun _ h3 =>
      h3.elim (fun _ h4 => h4.1))⟩))⟩

/-! ## Instances of the properties stated case by case -/

theorem handleBlock_second_block_witness :
    (⟨[("a", 0)], 0, "", false, [], ⟨"a", "c", [⟨"x", "c", "a", ["a"], []⟩]⟩, "a"⟩ :
        StateSwarmInformed).handleBlock (fun hosts _ => hosts.headD "") ("s1", "s2")
        ⟨"y", "c", "a", ["a", "b"], []⟩
      = Outcome.ok
          (NextState.connected,
            ⟨[("a", 0)], 0, "", false, [],
              ⟨"a", "c", [⟨"x", "c", "a", ["a"], []⟩, ⟨"y", "c", "a", ["a", "b"], []⟩]⟩, "a"⟩,
            []) :=
  ((handleBlock_second_block (fun hosts _ => hosts.headD "") ("s1", "s2")
    ⟨[("a", 0)], 0, "", false, [], ⟨"a", "c", [⟨"x", "c", "a", ["a"], []⟩]⟩, "a"⟩
    ⟨"y", "c", "a", ["a", "b"], []⟩).1 rfl rfl (by decide)).1

theorem Sibling_GobEncode_checks_witness :
    (Sibling.GobEncode (⟨fun _ => ⟨3, 7, some ⟨some 1, none⟩⟩, 1⟩ : Heap Nat) (some 0)).1 = [] ∧
    (Sibling.GobEncode (⟨fun _ => ⟨3, 7, some ⟨some 1, none⟩⟩, 1⟩ : Heap Nat) (some 0)).2
      ≠ none :=
  (Sibling_GobEncode_checks (⟨fun _ => ⟨3, 7, some ⟨some 1, none⟩⟩, 1⟩ : Heap Nat)).2.2.2.1
    0 ⟨some 1, none⟩ rfl rfl

theorem handleTransaction_nodeAlive_witness :
    ((⟨[("a", 0), ("b", 0)], 1, "", true, [], ⟨"a", "c", []⟩, ""⟩ :
        StateSwarmInformed).handleTransaction (fun hosts _ => hosts.headD "")
      (Transaction.nodeAlive ⟨"d", "c"⟩)).1
      = ⟨[("a", 0), ("b", 0), ("d", 0)], 1, "", true, [], ⟨"a", "c", []⟩, ""⟩ :=
  ((handleTransaction_nodeAlive (fun hosts _ => hosts.headD "")
    ⟨[("a", 0), ("b", 0)], 1, "", true, [], ⟨"a", "c", []⟩, ""⟩ ⟨"d", "c"⟩).2 rfl).1

end Sia
